import Mathlib

/-!
# veq parser: tier markers, blocks, reference classification, fragments

A shallow embedding of `packages/@veq/parser/lib/parser.js`.

The external collaborators are inputs of the model:
* `espree.parse` : the AST of the source text (`Program`), every node carrying
  its `start` / `end` offsets, counted in UTF-16 code units as `source.length`
  is;
* `eslintScope.analyze` : the scopes, each a list of `Reference`s;
* `uuid` : the supply of identifiers, `uuid k` being the result of the
  `k`-th call (counted from zero).

`estraverse.traverse` is modelled as the usual depth-first walk: `enter` on a
node, then its children left to right unless `enter` answered `Skip`, then
`leave` on the node.  JavaScript exceptions are the `Except.error` results.
-/

namespace Veq

/-- The JavaScript exceptions `parse` can raise. `TypeError` is what reading a
property of `undefined` raises. -/
inductive JsError where
  | SyntaxError
  | TypeError
  | Error
  deriving DecidableEq, Repr

/-- An ESTree `Identifier` node: its offsets and its name. -/
structure Identifier where
  start : Nat
  end_ : Nat
  name : String
  deriving DecidableEq, Repr

/-- The values of `node.type` the parser distinguishes. -/
inductive NodeType where
  | Identifier
  | SequenceExpression
  | ExpressionStatement
  | LabeledStatement
  | FunctionDeclaration
  | FunctionExpression
  | ArrowFunctionExpression
  | Other
  deriving DecidableEq, Repr

/-- The three function-like node types. -/
inductive FunctionKind where
  | FunctionDeclaration
  | FunctionExpression
  | ArrowFunctionExpression
  deriving DecidableEq, Repr

/-- ESTree nodes, as far as the parser inspects them. `Other` is a node of any
other type; `children` are the child nodes in visiting order. -/
inductive Node where
  | Identifier (id : Identifier)
  | SequenceExpression (start end_ : Nat) (expressions : List Node)
  | ExpressionStatement (start end_ : Nat) (expression : Node)
  | LabeledStatement (start end_ : Nat) (label : Identifier) (body : Node)
  | Function (kind : FunctionKind) (start end_ : Nat) (async : Bool) (children : List Node)
  | Other (start end_ : Nat) (children : List Node)

/-- The root node returned by `espree.parse`. -/
structure Program where
  start : Nat
  end_ : Nat
  body : List Node

def FunctionKind.toNodeType : FunctionKind → NodeType
  | .FunctionDeclaration => .FunctionDeclaration
  | .FunctionExpression => .FunctionExpression
  | .ArrowFunctionExpression => .ArrowFunctionExpression

/-- The property `node.type`. -/
def Node.type : Node → NodeType
  | .Identifier _ => .Identifier
  | .SequenceExpression _ _ _ => .SequenceExpression
  | .ExpressionStatement _ _ _ => .ExpressionStatement
  | .LabeledStatement _ _ _ _ => .LabeledStatement
  | .Function kind _ _ _ _ => kind.toNodeType
  | .Other _ _ _ => .Other

/-- The property `node.range[0]` (equally `node.start`). -/
def Node.start : Node → Nat
  | .Identifier id => id.start
  | .SequenceExpression s _ _ => s
  | .ExpressionStatement s _ _ => s
  | .LabeledStatement s _ _ _ => s
  | .Function _ s _ _ _ => s
  | .Other s _ _ => s

/-- The property `node.range[1]` (equally `node.end`). -/
def Node.end_ : Node → Nat
  | .Identifier id => id.end_
  | .SequenceExpression _ e _ => e
  | .ExpressionStatement _ e _ => e
  | .LabeledStatement _ e _ _ => e
  | .Function _ _ e _ _ => e
  | .Other _ e _ => e

/-- The property `node.async`, `undefined` (falsy) on nodes that are no
functions. -/
def Node.async : Node → Bool
  | .Function _ _ _ a _ => a
  | _ => false

/-- The test `node.type === 'LabeledStatement' && node.label.name === 'on'`. -/
def Node.isOnLabel : Node → Bool
  | .LabeledStatement _ _ label _ => label.name == "on"
  | _ => false

mutual
/-- Object identity `a === b` of two nodes of one tree, decided on their
structure: a node and another node of the same tree that is its ancestor or
lies at other offsets differ structurally. -/
def Node.same : Node → Node → Bool
  | .Identifier a, .Identifier b => a == b
  | .SequenceExpression s e xs, .SequenceExpression s2 e2 ys =>
    s == s2 && e == e2 && Node.sameList xs ys
  | .ExpressionStatement s e x, .ExpressionStatement s2 e2 y =>
    s == s2 && e == e2 && Node.same x y
  | .LabeledStatement s e l x, .LabeledStatement s2 e2 l2 y =>
    s == s2 && e == e2 && l == l2 && Node.same x y
  | .Function k s e a xs, .Function k2 s2 e2 a2 ys =>
    k == k2 && s == s2 && e == e2 && a == a2 && Node.sameList xs ys
  | .Other s e xs, .Other s2 e2 ys => s == s2 && e == e2 && Node.sameList xs ys
  | _, _ => false
/-- Pointwise `Node.same` on child lists. -/
def Node.sameList : List Node → List Node → Bool
  | [], [] => true
  | x :: xs, y :: ys => Node.same x y && Node.sameList xs ys
  | _, _ => false
end

def server : String := "server"

def client : String := "client"

/-- `identifiersFromLabelNode`, lines 10-22: the identifiers of a marker's
payload `label.body.expression`. -/
def identifiersFromLabelNode (label : Node) : Except JsError (List Identifier) :=
  match label with
  | .LabeledStatement _ _ _ (.ExpressionStatement _ _ childNode) =>
    match childNode with
    | .Identifier id => .ok [id]
    | .SequenceExpression _ _ expressions =>
      if expressions.any (fun node => node.type != NodeType.Identifier) then
        .error .SyntaxError
      else
        .ok (expressions.filterMap fun node =>
          match node with
          | .Identifier id => some id
          | _ => none)
    | _ => .error .SyntaxError
  -- `label.body.expression` is `undefined`: reading `childNode.type` raises
  | _ => .error .TypeError

/-- A JavaScript `Set<string>`: the elements in insertion order. -/
abbrev NameSet := List String

/-- `Set.prototype.add`. -/
def NameSet.add (s : NameSet) (name : String) : NameSet :=
  if s.contains name then s else s ++ [name]

/-- The class `NodeState`, lines 23-40. -/
structure NodeState where
  sideIdentifiers : List Identifier
  global : Bool
  sessionRequired : Bool
  sides : List String
  inNames : NameSet
  outNames : NameSet
  id : String
  deriving DecidableEq, Repr

/-- The constructor of `NodeState`; `id` is the value `uuid()` returns. -/
def NodeState.new (labelNode : Node) (id : String) : Except JsError NodeState :=
  match identifiersFromLabelNode labelNode with
  | .error e => .error e
  | .ok sideIdentifiers =>
    .ok { sideIdentifiers := sideIdentifiers
          global := false
          sessionRequired := false
          sides := sideIdentifiers.map fun id => id.name
          inNames := []
          outNames := []
          id := id }

/-- The mutable variables of the traversal: `functionStack`, and `onLabels`
with the entry of the map `nodeState` for each label. -/
structure TraverseState where
  functionStack : List Node
  onLabels : List (Node × NodeState)

def functionTypes : List NodeType :=
  [.FunctionDeclaration, .FunctionExpression, .ArrowFunctionExpression]

/-- The `enter` callback, lines 57-66. The boolean is `true` when the callback
returns `estraverse.VisitorOption.Skip`. -/
def enter (uuid : Nat → String) (node : Node) (st : TraverseState) :
    Except JsError (TraverseState × Bool) :=
  let functionStack :=
    if functionTypes.contains node.type then node :: st.functionStack else st.functionStack
  if node.isOnLabel then
    if (match functionStack.head? with
        | some f => !f.async
        | none => false) then .error .SyntaxError
    else
      match node with
      | .LabeledStatement _ _ _ body =>
        if body.type != NodeType.ExpressionStatement then .error .SyntaxError
        else
          match NodeState.new node (uuid st.onLabels.length) with
          | .error e => .error e
          | .ok state =>
            .ok ({ functionStack := functionStack
                   onLabels := st.onLabels ++ [(node, state)] }, true)
      | _ => .error .TypeError
  else .ok ({ st with functionStack := functionStack }, false)

/-- The `leave` callback, line 67. -/
def leave (node : Node) (st : TraverseState) : TraverseState :=
  match st.functionStack with
  | f :: rest => if Node.same f node then { st with functionStack := rest } else st
  | [] => st

/-- The walk over a node without children: `enter`, then `leave`. -/
def traverseLeaf (uuid : Nat → String) (node : Node) (st : TraverseState) :
    Except JsError TraverseState :=
  match enter uuid node st with
  | .error e => .error e
  | .ok (st1, _) => .ok (leave node st1)

mutual
/-- The walk `estraverse.traverse` does from `node` with the two callbacks. The
children of a labeled statement are its `label`, then its `body`. -/
def traverse (uuid : Nat → String) : Node → TraverseState → Except JsError TraverseState
  | node, st =>
    match enter uuid node st with
    | .error e => .error e
    | .ok (st1, true) => .ok (leave node st1)
    | .ok (st1, false) =>
      match node with
      | .Identifier _ => .ok (leave node st1)
      | .SequenceExpression _ _ expressions =>
        (traverseList uuid expressions st1).map (leave node)
      | .ExpressionStatement _ _ expression =>
        (traverse uuid expression st1).map (leave node)
      | .LabeledStatement _ _ label body =>
        match traverseLeaf uuid (.Identifier label) st1 with
        | .error e => .error e
        | .ok st2 => (traverse uuid body st2).map (leave node)
      | .Function _ _ _ _ children => (traverseList uuid children st1).map (leave node)
      | .Other _ _ children => (traverseList uuid children st1).map (leave node)
/-- The walk over the children of a node, left to right. -/
def traverseList (uuid : Nat → String) : List Node → TraverseState → Except JsError TraverseState
  | [], st => .ok st
  | node :: rest, st =>
    match traverse uuid node st with
    | .error e => .error e
    | .ok st1 => traverseList uuid rest st1
end

/-- The labels the walk of the whole tree records, lines 53-68: the root
`Program` node is entered and left like any node of another type. -/
def traverseProgram (uuid : Nat → String) (ast : Program) : Except JsError TraverseState :=
  traverse uuid (.Other ast.start ast.end_ ast.body) { functionStack := [], onLabels := [] }

/-- The comparison of `onLabels.sort((a, b) => a.range[0] - b.range[0])`. -/
def labelLe (a b : Node × NodeState) : Prop := a.1.start ≤ b.1.start

instance : DecidableRel labelLe := fun a b => inferInstanceAs (Decidable (a.1.start ≤ b.1.start))

/-- The stable ascending sort of line 69. -/
def sortLabels (onLabels : List (Node × NodeState)) : List (Node × NodeState) :=
  onLabels.insertionSort labelLe

/-- An element of `onBlocks`. -/
structure Block where
  label : Node
  start : Nat
  end_ : Nat

/-- The read `onLabels[i + 1].range[0]`; it is made at indices `i + 1` inside
the array only. -/
def nextStart (onLabels : List Node) (i : Nat) : Nat :=
  match onLabels[i + 1]? with
  | some next => next.start
  | none => 0

/-- The array `onBlocks`, line 83. -/
def onBlocks (sourceLength : Nat) (onLabels : List Node) : List Block :=
  onLabels.enum.map fun (i, label) =>
    { label := label
      start := label.end_
      end_ := if i = onLabels.length - 1 then sourceLength else nextStart onLabels i }

/-- `Array.prototype.find`, answering the index of the element found. -/
def findIndex {α : Type} (p : α → Bool) : List α → Option Nat
  | [] => none
  | x :: xs => if p x then some 0 else (findIndex p xs).map (· + 1)

/-- `blockFromNode`, line 84: the block found is given by its index in
`onBlocks`, `none` being `undefined`. -/
def blockFromNode (onBlocks : List Block) (node : Identifier) : Option Nat :=
  findIndex (fun block => decide (block.end_ ≥ node.end_)) onBlocks

/-- A definition of a variable of the scope graph. -/
structure Definition where
  name : Identifier
  deriving DecidableEq, Repr

/-- A variable of the scope graph. -/
structure Variable where
  defs : List Definition
  deriving DecidableEq, Repr

/-- A reference of the scope graph; `resolved` is `none` for `null`. -/
structure Reference where
  identifier : Identifier
  resolved : Option Variable
  deriving DecidableEq, Repr

/-- The property `label.sideIdentifiers` read on line 86: `label` is an ESTree
node, which has no such property (`sideIdentifiers` belongs to `NodeState`), so
the value is `undefined`, here `none`. -/
def Node.sideIdentifiers (_ : Node) : Option (List Veq.Identifier) := none

/-- The array `onIdentifiers`, line 86. `flatMap` spreads an array and keeps any
other value as one element; `none` is the element `undefined`. -/
def onIdentifiers (onLabels : List Node) : List (Option Identifier) :=
  onLabels.flatMap fun label =>
    match label.sideIdentifiers with
    | some identifiers => identifiers.map some
    | none => [none]

/-- The array `references`, lines 88-91. -/
def references (onLabels : List Node) (scopes : List (List Reference)) : List Reference :=
  (scopes.flatMap fun scope => scope).filter fun ref =>
    !(onIdentifiers onLabels).contains (some ref.identifier)

/-- One turn of the loop of lines 92-107. The map `nodeState` is the list of
the states of the blocks, in the order of `onBlocks`. -/
def classifyReference (onBlocks : List Block) (nodeState : List NodeState) (ref : Reference) :
    Except JsError (List NodeState) :=
  match ref.resolved with
  | none => .ok nodeState
  | some resolved =>
    let identifier := ref.identifier
    let identifierBlock := blockFromNode onBlocks identifier
    match resolved.defs.head? with
    -- `resolved.defs[0]` is `undefined`
    | none => .error .TypeError
    | some def0 =>
      let resolvedBlock := blockFromNode onBlocks def0.name
      if identifierBlock = resolvedBlock then .ok nodeState
      else
        match identifierBlock, resolvedBlock with
        | some i, some j =>
          match nodeState[i]?, nodeState[j]? with
          | some identifierState, some resolvedState =>
            if [identifierState, resolvedState].all (fun state => state.sides.contains server) then
              .ok (nodeState.set i { identifierState with sessionRequired := true })
            else if [identifierState, resolvedState].all
                (fun state => state.sides.contains client) then
              .ok nodeState
            else
              .ok ((nodeState.set i
                      { identifierState with inNames := identifierState.inNames.add identifier.name }).set j
                      { resolvedState with outNames := resolvedState.outNames.add identifier.name })
          | _, _ => .error .TypeError
        -- `identifierBlock.label` or `resolvedBlock.label` on `undefined`
        | _, _ => .error .TypeError

/-- The loop of lines 92-107. -/
def classify (onBlocks : List Block) : List Reference → List NodeState →
    Except JsError (List NodeState)
  | [], nodeState => .ok nodeState
  | ref :: rest, nodeState =>
    match classifyReference onBlocks nodeState ref with
    | .error e => .error e
    | .ok nodeState1 => classify onBlocks rest nodeState1

/-- A JavaScript string: the list of its UTF-16 code units. `source.length`, the
offsets of the AST nodes and `String.prototype.slice` all count code units. -/
abbrev JsString := List Nat

/-- The code units of a character: one unit in the basic plane, a surrogate
pair above it. -/
def utf16Char (c : Char) : List Nat :=
  if c.toNat < 65536 then [c.toNat]
  else [55296 + (c.toNat - 65536) / 1024, 56320 + (c.toNat - 65536) % 1024]

/-- The JavaScript string of a text. -/
def utf16 (s : String) : JsString := s.data.flatMap utf16Char

/-- `Array.prototype.join` on strings. -/
def joinNames (separator : String) (names : List String) : JsString :=
  List.intercalate (utf16 separator) (names.map utf16)

/-- `String.prototype.slice` with two offsets, which are never negative
here. -/
def slice (source : JsString) (start end_ : Nat) : JsString :=
  (source.drop start).take (end_ - start)

/-- An element of the emitted list `server`. -/
structure Fragment where
  id : String
  sessionRequired : Bool
  code : JsString
  deriving DecidableEq, Repr

/-- The template of lines 116-120. -/
def fragmentCode (source : JsString) (block : Block) (state : NodeState) : JsString :=
  utf16 "\n; " ++
  (if state.inNames.length > 0 then
     utf16 "const \x7b " ++ joinNames ", " state.inNames ++ utf16 " \x7d = __veqIn"
   else utf16 "") ++
  utf16 "\n; " ++ slice source block.start block.end_ ++
  utf16 "\n; __veqOut = \x7b " ++ joinNames ", " state.outNames ++ utf16 " \x7d\n;"

/-- The object built on lines 113-121. -/
def fragment (source : JsString) (block : Block) (state : NodeState) : Fragment :=
  { id := state.id
    sessionRequired := state.sessionRequired
    code := fragmentCode source block state }

/-- The value `parse` returns. -/
structure Output where
  server : List Fragment
  deriving DecidableEq, Repr

/-- The blocks and their states when the loop of lines 92-107 is over: `parse`
up to line 107. -/
def parseBlocks (uuid : Nat → String) (source : JsString) (ast : Program)
    (scopes : List (List Reference)) : Except JsError (List Block × List NodeState) :=
  match ast.body.head? with
  -- `ast.body[0]` is `undefined`
  | none => .error .TypeError
  | some first =>
    if first.type != NodeType.LabeledStatement || !first.isOnLabel then .error .SyntaxError
    else
      match traverseProgram uuid ast with
      | .error e => .error e
      | .ok st =>
        let sorted := sortLabels st.onLabels
        let onLabels := sorted.map Prod.fst
        let nodeState := sorted.map Prod.snd
        let onBlocks := onBlocks source.length onLabels
        if st.functionStack.length != 0 then .error .Error
        else
          match classify onBlocks (references onLabels scopes) nodeState with
          | .error e => .error e
          | .ok nodeState1 => .ok (onBlocks, nodeState1)

/-- `parse`, lines 43-124. -/
def parse (uuid : Nat → String) (source : JsString) (ast : Program)
    (scopes : List (List Reference)) : Except JsError Output :=
  match parseBlocks uuid source ast scopes with
  | .error e => .error e
  | .ok (onBlocks, nodeState) =>
    .ok { server :=
            ((onBlocks.zip nodeState).filter fun (_, state) => state.sides.contains server).map
              fun (block, state) => fragment source block state }

/-! ## The loader, `packages/veq-loader/lib/loader.js` -/

/-- The text `cs` begins with the characters `ps`. -/
def startsWith : List Char → List Char → Bool
  | [], _ => true
  | _ :: _, [] => false
  | p :: ps, c :: cs => p == c && startsWith ps cs

/-- The text `cs` contains the characters `ps` somewhere. -/
def containsAt (ps : List Char) : List Char → Bool
  | [] => startsWith ps []
  | c :: cs => startsWith ps (c :: cs) || containsAt ps cs

/-- `RegExp.prototype.test` for a pattern made of literal characters, as `/vue/`
and `/veq=true/` are: the text contains the pattern. -/
def regexTest (pattern text : String) : Bool := containsAt pattern.data text.data

/-- A call `loaderContext.callback(err, source, map)`; `err` is `none` for
`null`. -/
structure CallbackCall (μ : Type) where
  err : Option JsError
  source : String
  map : μ

/-- The exported function of the loader, lines 3-7, with `resourcePath` read
from `this`: the calls of `loaderContext.callback` it makes. -/
def loader {μ : Type} (resourcePath : String) (source : String) (map : μ) :
    List (CallbackCall μ) :=
  if !regexTest "vue" resourcePath || !regexTest "veq=true" resourcePath then
    [{ err := none, source := source, map := map }]
  else []

/-! ## Notions used to state the properties -/

/-- The child nodes in visiting order. -/
def Node.children : Node → List Node
  | .Identifier _ => []
  | .SequenceExpression _ _ expressions => expressions
  | .ExpressionStatement _ _ expression => [expression]
  | .LabeledStatement _ _ label body => [.Identifier label, body]
  | .Function _ _ _ _ children => children
  | .Other _ _ children => children

/-- A function-like node: `functionTypes.includes(node.type)`. -/
def Node.isFunction (node : Node) : Bool := functionTypes.contains node.type

/-- The root `Program` as a node. -/
def Program.toNode (ast : Program) : Node := .Other ast.start ast.end_ ast.body

/-- `Inside root encl m`: the node `m` occurs in the tree `root`, and `encl` are
the function-like nodes among its proper ancestors in `root`, the nearest
first. -/
inductive Inside : Node → List Node → Node → Prop where
  | self (node : Node) : Inside node [] node
  | child (node c : Node) (encl : List Node) (m : Node) :
      c ∈ node.children → Inside c encl m →
      Inside node (encl ++ if node.isFunction then [node] else []) m

mutual
/-- The tier markers of a tree in source order, those below a marker left
out. -/
def markersOf : Node → List Node
  | .Identifier _ => []
  | .SequenceExpression _ _ expressions => markersOfList expressions
  | .ExpressionStatement _ _ expression => markersOf expression
  | .LabeledStatement s e label body =>
    if label.name == "on" then [.LabeledStatement s e label body] else markersOf body
  | .Function _ _ _ _ children => markersOfList children
  | .Other _ _ children => markersOfList children
/-- The tier markers of a list of trees. -/
def markersOfList : List Node → List Node
  | [] => []
  | node :: rest => markersOf node ++ markersOfList rest
end

/-- The entries of `nodeState` made for the markers `ms`, the first of them
with the `k`-th identifier of the supply. -/
def labelStates (uuid : Nat → String) (k : Nat) : List Node → Except JsError (List (Node × NodeState))
  | [] => .ok []
  | m :: ms =>
    match NodeState.new m (uuid k) with
    | .error e => .error e
    | .ok state => (labelStates uuid (k + 1) ms).map fun rest => (m, state) :: rest

/-- The checks of lines 60-62 pass on the marker `m` under the function stack
`stack`: no enclosing function or an asynchronous one, and a payload of
identifiers. -/
def Accepted (stack : List Node) (m : Node) : Prop :=
  (∀ f, stack.head? = some f → f.async = true) ∧
    ∃ identifiers, identifiersFromLabelNode m = .ok identifiers

/-- What a walk started in the state `st` answers: a `SyntaxError`, or a state
with the function stack of `st` and with one more entry for each of `markers`;
in the second case every marker `inside` the walked trees passed the checks. -/
def WalkSpec (uuid : Nat → String) (markers : List Node) (inside : List Node → Node → Prop)
    (st : TraverseState) : Except JsError TraverseState → Prop
  | .error e => e = .SyntaxError
  | .ok st1 =>
    st1.functionStack = st.functionStack ∧
    (∃ new, labelStates uuid st.onLabels.length markers = .ok new ∧
      st1.onLabels = st.onLabels ++ new) ∧
    ∀ encl m, inside encl m → m.isOnLabel = true → Accepted (encl ++ st.functionStack) m

/-- `s1` is `s` after some turns of the loop: the fields the loop never writes
are equal, the name sets and the flag have grown at most. -/
def Grows (s s1 : NodeState) : Prop :=
  s1.sideIdentifiers = s.sideIdentifiers ∧ s1.global = s.global ∧ s1.sides = s.sides ∧
    s1.id = s.id ∧ s.inNames ⊆ s1.inNames ∧ s.outNames ⊆ s1.outNames ∧
    (s.sessionRequired = true → s1.sessionRequired = true)

/-- The names a marker's payload lists: those of a single identifier or of a
comma-sequence made of identifiers only, left to right; `none` for a body that
is no expression statement and for any other expression. -/
def payloadNames : Node → Option (List String)
  | .LabeledStatement _ _ _ (.ExpressionStatement _ _ (.Identifier id)) => some [id.name]
  | .LabeledStatement _ _ _ (.ExpressionStatement _ _ (.SequenceExpression _ _ expressions)) =>
    expressions.foldr
      (fun node names =>
        match node, names with
        | .Identifier id, some rest => some (id.name :: rest)
        | _, _ => none)
      (some [])
  | _ => none

/-- A state whose name sets list every name once. -/
def NodeState.NamesNodup (s : NodeState) : Prop := s.inNames.Nodup ∧ s.outNames.Nodup

/-- What one turn of the loop of lines 92-107 does to the states: nothing, set
`sessionRequired` on block `i`, or record `name` as an input of block `i` and
an output of block `j`. -/
inductive Action where
  | skip
  | session (i : Nat)
  | cross (i j : Nat) (name : String)

/-- The state of block `k` after an action, from its state `s` before. -/
def Action.stateAt (a : Action) (k : Nat) (s : NodeState) : NodeState :=
  match a with
  | .skip => s
  | .session i => if k = i then { s with sessionRequired := true } else s
  | .cross i j name =>
    if k = j then { s with outNames := s.outNames.add name }
    else if k = i then { s with inNames := s.inNames.add name }
    else s

/-- The action on a reference used in block `i` and declared in another block
`j`, from the tier lists `a` and `b` of the two blocks: lines 100-106. -/
def tierAction (i j : Nat) (name : String) (a b : List String) : Action :=
  if a.contains server && b.contains server then .session i
  else if a.contains client && b.contains client then .skip
  else .cross i j name

/-- The action of one turn of the loop, which depends on the states through
their tier lists `sides` only. -/
def actionOf (blocks : List Block) (sides : List (List String)) (ref : Reference) :
    Except JsError Action :=
  match ref.resolved with
  | none => .ok .skip
  | some resolved =>
    match resolved.defs.head? with
    | none => .error .TypeError
    | some def0 =>
      if blockFromNode blocks ref.identifier = blockFromNode blocks def0.name then .ok .skip
      else
        match blockFromNode blocks ref.identifier, blockFromNode blocks def0.name with
        | some i, some j =>
          match sides[i]?, sides[j]? with
          | some a, some b => .ok (tierAction i j ref.identifier.name a b)
          | _, _ => .error .TypeError
        | _, _ => .error .TypeError

/-- The result of a turn of the loop, seen as an action on the states. -/
def StepSpec (blocks : List Block) (ns : List NodeState) (ref : Reference) :
    Except JsError (List NodeState) → Prop
  | .error e => e = .TypeError ∧
      actionOf blocks (ns.map fun s => s.sides) ref = .error .TypeError
  | .ok ns1 => ∃ a, actionOf blocks (ns.map fun s => s.sides) ref = .ok a ∧
      ∀ k, ns1[k]? = (ns[k]?).map (a.stateAt k)

/-- The state of block `k` after the actions `acts`, in this order, from its
state `s` before. -/
def finalState (acts : List Action) (k : Nat) (s : NodeState) : NodeState :=
  acts.foldl (fun s a => a.stateAt k s) s

/-- The result of the loop of lines 92-107, seen as the list of the actions of
the references. -/
def LoopSpec (blocks : List Block) (ns : List NodeState) (refs : List Reference) :
    Except JsError (List NodeState) → Prop
  | .error e => e = .TypeError ∧
      ∃ ref ∈ refs, actionOf blocks (ns.map fun s => s.sides) ref = .error .TypeError
  | .ok ns1 => ∃ acts,
      List.Forall₂ (fun ref a => actionOf blocks (ns.map fun s => s.sides) ref = .ok a)
        refs acts ∧
      ∀ k, ns1[k]? = (ns[k]?).map (finalState acts k)

/-- Two lists of states with the same flags and, as sets, the same names. -/
def SameClassification (a b : List NodeState) : Prop :=
  List.Forall₂
    (fun s t => s.sessionRequired = t.sessionRequired ∧ s.sides = t.sides ∧
      (∀ n, n ∈ s.inNames ↔ n ∈ t.inNames) ∧ (∀ n, n ∈ s.outNames ↔ n ∈ t.outNames))
    a b

/-- Two runs of the loop have the same outcome: the same error, or states with
the same flags and the same sets of names. -/
def SameOutcome : Except JsError (List NodeState) → Except JsError (List NodeState) → Prop
  | .ok a, .ok b => SameClassification a b
  | .error e1, .error e2 => e1 = e2
  | _, _ => False

/-- The fields of a state that do not depend on the identifier supply. -/
def NodeState.eraseId (s : NodeState) : NodeState := { s with id := "" }

/-- A label with its state, the identifier erased. -/
def eraseLabelId (p : Node × NodeState) : Node × NodeState := (p.1, p.2.eraseId)

/-! ## Concrete modules -/

/-- A constant identifier supply. -/
def uuid0 (k : Nat) : String := "id" ++ toString k

/-- The AST of a marker statement `on: name` at offset `start`. -/
def marker (start : Nat) (name : String) : Node :=
  .LabeledStatement start (start + 4 + name.length) ⟨start, start + 2, "on"⟩
    (.ExpressionStatement (start + 4) (start + 4 + name.length)
      (.Identifier ⟨start + 4, start + 4 + name.length, name⟩))

/-- The AST of a statement `console.log(name)` at offset `start`. -/
def consoleLog (start : Nat) (name : String) : Node :=
  .ExpressionStatement start (start + 13 + name.length)
    (.Other start (start + 13 + name.length)
      [.Other start (start + 11)
        [.Identifier ⟨start, start + 7, "console"⟩, .Identifier ⟨start + 8, start + 11, "log"⟩],
       .Identifier ⟨start + 12, start + 12 + name.length, name⟩])

/-- The AST of a statement `let name = 1` at offset `start`. -/
def letOne (start : Nat) (name : String) : Node :=
  .Other start (start + 8 + name.length)
    [.Other (start + 4) (start + 8 + name.length)
      [.Identifier ⟨start + 4, start + 4 + name.length, name⟩,
       .Other (start + 7 + name.length) (start + 8 + name.length) []]]

/-- The unresolved reference to a global `name` read at offset `start`. -/
def globalRef (start : Nat) (name : String) : Reference :=
  { identifier := ⟨start, start + name.length, name⟩, resolved := none }

/-- The reference to `name` at offset `start`, resolved to the variable
declared at offset `decl`. -/
def resolvedRef (start : Nat) (name : String) (decl : Nat) : Reference :=
  { identifier := ⟨start, start + name.length, name⟩
    resolved := some { defs := [{ name := ⟨decl, decl + name.length, name⟩ }] } }

/-- The source text of Example 1 of the specification. -/
def example1Source : JsString := utf16 "on: client\nlet x = 1\non: server\nconsole.log(x)"

def example1Ast : Program :=
  { start := 0, end_ := 46
    body := [marker 0 "client", letOne 11 "x", marker 21 "server", consoleLog 32 "x"] }

def example1Scopes : List (List Reference) :=
  [[globalRef 4 "client", resolvedRef 15 "x" 15, globalRef 25 "server",
    globalRef 32 "console", resolvedRef 44 "x" 15]]

/-- A module with a marker in a function that is not asynchronous. -/
def syncFunctionSource : JsString := utf16 "on: server\nfunction f() \x7b\n  on: client\n\x7d"

def syncFunctionAst : Program :=
  { start := 0, end_ := 40
    body := [marker 0 "server",
      .Function .FunctionDeclaration 11 40 false
        [.Identifier ⟨20, 21, "f"⟩, .Other 24 40 [marker 28 "client"]]] }

def syncFunctionScopes : List (List Reference) :=
  [[globalRef 4 "server"], [globalRef 32 "client"]]

/-- The module `on: 1`, a marker whose payload is a number. -/
def numberPayloadAst : Program :=
  { start := 0, end_ := 5
    body := [.LabeledStatement 0 5 ⟨0, 2, "on"⟩ (.ExpressionStatement 4 5 (.Other 4 5 []))] }

/-- The module `on: foo`. -/
def unknownTierAst : Program := { start := 0, end_ := 7, body := [marker 0 "foo"] }

def unknownTierScopes : List (List Reference) := [[globalRef 4 "foo"]]

/-- The module `on: server, client` followed by `f()`. -/
def twoTiersSource : JsString := utf16 "on: server, client\nf()"

def twoTiersAst : Program :=
  { start := 0, end_ := 22
    body := [.LabeledStatement 0 18 ⟨0, 2, "on"⟩
        (.ExpressionStatement 4 18
          (.SequenceExpression 4 18
            [.Identifier ⟨4, 10, "server"⟩, .Identifier ⟨12, 18, "client"⟩])),
      .ExpressionStatement 19 22 (.Other 19 22 [.Identifier ⟨19, 20, "f"⟩])] }

def twoTiersScopes : List (List Reference) :=
  [[globalRef 4 "server", globalRef 12 "client", globalRef 19 "f"]]

/-- The source text of Example 2 of the specification. -/
def example2Source : JsString := utf16 "on: server\nlet y = 2\non: server\nconsole.log(y)"

def example2Ast : Program :=
  { start := 0, end_ := 46
    body := [marker 0 "server", letOne 11 "y", marker 21 "server", consoleLog 32 "y"] }

def example2Scopes : List (List Reference) :=
  [[globalRef 4 "server", resolvedRef 15 "y" 15, globalRef 25 "server",
    globalRef 32 "console", resolvedRef 44 "y" 15]]

/-- The state `NodeState` makes for a marker `on: name`. -/
def freshState (start : Nat) (name id : String) : NodeState :=
  { sideIdentifiers := [⟨start + 4, start + 4 + name.length, name⟩]
    global := false
    sessionRequired := false
    sides := [name]
    inNames := []
    outNames := []
    id := id }

/-- Example 1 with a second server block that reads `x`. -/
def twoReadersSource : JsString :=
  utf16 "on: client\nlet x = 1\non: server\nconsole.log(x)\non: server\nconsole.log(x)"

def twoReadersAst : Program :=
  { start := 0, end_ := 72
    body := [marker 0 "client", letOne 11 "x", marker 21 "server", consoleLog 32 "x",
      marker 47 "server", consoleLog 58 "x"] }

def twoReadersScopes : List (List Reference) :=
  [[globalRef 4 "client", resolvedRef 15 "x" 15, globalRef 25 "server",
    globalRef 32 "console", resolvedRef 44 "x" 15, globalRef 51 "server",
    globalRef 58 "console", resolvedRef 70 "x" 15]]

/-- A module that declares a binding named `server`:
`on: client`, `let server = 1`, `on: server`, `f()`. -/
def serverBindingSource : JsString := utf16 "on: client\nlet server = 1\non: server\nf()"

def serverBindingAst : Program :=
  { start := 0, end_ := 40
    body := [marker 0 "client", letOne 11 "server", marker 26 "server",
      .ExpressionStatement 37 40 (.Other 37 40 [.Identifier ⟨37, 38, "f"⟩])] }

/-- The token `server` of the second marker, at 30, is a reference to the
binding declared at 15. -/
def serverBindingScopes : List (List Reference) :=
  [[globalRef 4 "client", resolvedRef 15 "server" 15, resolvedRef 30 "server" 15,
    globalRef 37 "f"]]

/-- The blocks of Example 1, and their states before the loop. -/
def example1Blocks : List Block := onBlocks 46 [marker 0 "client", marker 21 "server"]

def example1States : List NodeState :=
  [freshState 0 "client" "id0", freshState 21 "server" "id1"]

/-- The blocks of Example 2, and their states before the loop. -/
def example2Blocks : List Block := onBlocks 46 [marker 0 "server", marker 21 "server"]

def example2States : List NodeState :=
  [freshState 0 "server" "id0", freshState 21 "server" "id1"]

/-- A module whose function reads `arguments`:
`on: server`, `async function f() { return arguments }`. -/
def argumentsSource : JsString := utf16 "on: server\nasync function f() \x7b return arguments \x7d"

def argumentsAst : Program :=
  { start := 0, end_ := 50
    body := [marker 0 "server",
      .Function .FunctionDeclaration 11 50 true
        [.Identifier ⟨26, 27, "f"⟩,
         .Other 30 50 [.Other 32 48 [.Identifier ⟨39, 48, "arguments"⟩]]]] }

/-- The reference to `arguments` is resolved to the variable every function
scope has, which has no definition. -/
def argumentsScopes : List (List Reference) :=
  [[globalRef 4 "server"],
   [{ identifier := ⟨39, 48, "arguments"⟩, resolved := some { defs := [] } }]]

/-- The blocks of two client markers at 0 and 21, and their states before the
loop. -/
def clientBlocks : List Block := onBlocks 46 [marker 0 "client", marker 21 "client"]

def clientStates : List NodeState :=
  [freshState 0 "client" "id0", freshState 21 "client" "id1"]

/-- A source with a character outside the basic plane:
`on: server`, `let s = "😀"`, `on: server`, `f(s)`. The character takes the two
code units 20 and 21. -/
def astralSource : JsString := utf16 "on: server\nlet s = \"😀\"\non: server\nf(s)"

def astralAst : Program :=
  { start := 0, end_ := 39
    body := [marker 0 "server",
      .Other 11 23 [.Other 15 23 [.Identifier ⟨15, 16, "s"⟩, .Other 19 23 []]],
      marker 24 "server",
      .ExpressionStatement 35 39
        (.Other 35 39 [.Identifier ⟨35, 36, "f"⟩, .Identifier ⟨37, 38, "s"⟩])] }

def astralScopes : List (List Reference) :=
  [[globalRef 4 "server", resolvedRef 15 "s" 15, globalRef 28 "server",
    globalRef 35 "f", resolvedRef 37 "s" 15]]

/-! ## The tree and the identity of nodes -/

theorem Node.sizeOf_pos (node : Node) : 0 < sizeOf node := by
  cases node <;> simp only [Node.Identifier.sizeOf_spec, Node.SequenceExpression.sizeOf_spec,
    Node.ExpressionStatement.sizeOf_spec, Node.LabeledStatement.sizeOf_spec,
    Node.Function.sizeOf_spec, Node.Other.sizeOf_spec] <;> omega

theorem sizeOf_lt_of_mem_children {c node : Node} (h : c ∈ node.children) :
    sizeOf c < sizeOf node := by
  cases node with
  | Identifier id => simp [Node.children] at h
  | SequenceExpression s e es =>
    have := List.sizeOf_lt_of_mem (show c ∈ es from h)
    simp only [Node.SequenceExpression.sizeOf_spec]; omega
  | ExpressionStatement s e x =>
    simp only [Node.children, List.mem_singleton] at h; subst h
    simp only [Node.ExpressionStatement.sizeOf_spec]; omega
  | LabeledStatement s e l b =>
    simp only [Node.children, List.mem_cons, List.mem_singleton, List.not_mem_nil, or_false] at h
    have hb := Node.sizeOf_pos b
    rcases h with h | h <;> subst h <;>
      simp only [Node.LabeledStatement.sizeOf_spec, Node.Identifier.sizeOf_spec] <;> omega
  | Function k s e a cs =>
    have := List.sizeOf_lt_of_mem (show c ∈ cs from h)
    simp only [Node.Function.sizeOf_spec]; omega
  | Other s e cs =>
    have := List.sizeOf_lt_of_mem (show c ∈ cs from h)
    simp only [Node.Other.sizeOf_spec]; omega

/-- Induction on a tree: a property that holds of a node whenever it holds of
its children holds of every node. -/
theorem Node.induction_children {P : Node → Prop}
    (step : ∀ node, (∀ c ∈ node.children, P c) → P node) (node : Node) : P node := by
  suffices h : ∀ n (node : Node), sizeOf node = n → P node from h _ node rfl
  intro n
  induction n using Nat.strong_induction_on with
  | _ n ih =>
    intro node hn
    exact step node fun c hc => ih (sizeOf c) (hn ▸ sizeOf_lt_of_mem_children hc) c rfl

theorem Node.sameList_refl_of (cs : List Node) (h : ∀ c ∈ cs, Node.same c c = true) :
    Node.sameList cs cs = true := by
  induction cs with
  | nil => simp [Node.sameList]
  | cons c cs ih =>
    simp [Node.sameList, h c (by simp), ih (fun c hc => h c (by simp [hc]))]

theorem Node.same_refl (node : Node) : Node.same node node = true := by
  induction node using Node.induction_children with
  | step node hc =>
    cases node with
    | Identifier id => simp [Node.same]
    | SequenceExpression s e es =>
      simp [Node.same, Node.sameList_refl_of es hc]
    | ExpressionStatement s e x =>
      simp [Node.same, hc x (by simp [Node.children])]
    | LabeledStatement s e l b =>
      simp [Node.same, hc b (by simp [Node.children])]
    | Function k s e a cs =>
      simp [Node.same, Node.sameList_refl_of cs hc]
    | Other s e cs =>
      simp [Node.same, Node.sameList_refl_of cs hc]

theorem Node.isFunction_Function (k : FunctionKind) (s e : Nat) (a : Bool) (cs : List Node) :
    (Node.Function k s e a cs).isFunction = true := by
  cases k <;> simp [Node.isFunction, Node.type, functionTypes, FunctionKind.toNodeType]

theorem Node.same_function_of_not {f node : Node} (hf : f.isFunction = true)
    (hn : node.isFunction = false) : Node.same f node = false := by
  cases node with
  | Function k s e a cs => simp [Node.isFunction_Function] at hn
  | _ =>
    cases f <;>
    first
    | (simp [Node.isFunction, Node.type, functionTypes] at hf; done)
    | simp [Node.same]

/-! ## The tree walk -/

variable (uuid : Nat → String)

theorem enter_of_not_onLabel {node : Node} (h : node.isOnLabel = false) (st : TraverseState) :
    enter uuid node st = .ok ({ st with functionStack :=
      if node.isFunction then node :: st.functionStack else st.functionStack }, false) := by
  simp [enter, h, Node.isFunction]

theorem Node.isFunction_of_isOnLabel {node : Node} (h : node.isOnLabel = true) :
    node.isFunction = false := by
  cases node <;> simp_all [Node.isOnLabel, Node.isFunction, Node.type, functionTypes]

theorem Node.eq_of_type_expressionStatement {b : Node}
    (h : b.type = NodeType.ExpressionStatement) : ∃ s e x, b = .ExpressionStatement s e x := by
  cases b with
  | ExpressionStatement s e x => exact ⟨s, e, x, rfl⟩
  | Function k s e a cs => cases k <;> simp [Node.type, FunctionKind.toNodeType] at h
  | _ => simp [Node.type] at h

/-- On a marker whose body is an expression statement `identifiersFromLabelNode`
raises nothing but a `SyntaxError`. -/
theorem identifiersFromLabelNode_error {s e s2 e2 : Nat} {l : Identifier} {x : Node}
    {err : JsError}
    (h : identifiersFromLabelNode (.LabeledStatement s e l (.ExpressionStatement s2 e2 x)) =
      .error err) : err = .SyntaxError := by
  simp only [identifiersFromLabelNode] at h
  split at h
  · cases h
  · split at h
    · cases h; rfl
    · cases h
  · cases h; rfl

theorem identifiersFromLabelNode_ok_shape {node : Node} {ids : List Identifier}
    (h : identifiersFromLabelNode node = .ok ids) :
    ∃ s e l s2 e2 x, node = .LabeledStatement s e l (.ExpressionStatement s2 e2 x) := by
  unfold identifiersFromLabelNode at h
  split at h
  · exact ⟨_, _, _, _, _, _, rfl⟩
  · cases h

/-- What `enter` does on a tier marker. -/
theorem enter_of_onLabel {node : Node} (h : node.isOnLabel = true) (st : TraverseState) :
    (∃ st1, enter uuid node st = .ok (st1, true) ∧ st1.functionStack = st.functionStack ∧
        (∃ state, NodeState.new node (uuid st.onLabels.length) = .ok state ∧
          st1.onLabels = st.onLabels ++ [(node, state)]) ∧
        Accepted st.functionStack node) ∨
      enter uuid node st = .error .SyntaxError := by
  have hf := Node.isFunction_of_isOnLabel h
  cases node with
  | LabeledStatement s e l b =>
    simp only [enter, h, Node.isFunction] at hf ⊢
    simp only [hf, if_true, Bool.false_eq_true, if_false]
    split
    · right; rfl
    · rename_i hhead
      split
      · right; rfl
      · rename_i hbody
        simp only [bne_iff_ne, ne_eq, Decidable.not_not] at hbody
        obtain ⟨s2, e2, x, rfl⟩ := Node.eq_of_type_expressionStatement hbody
        cases hnew : NodeState.new (.LabeledStatement s e l (.ExpressionStatement s2 e2 x))
            (uuid st.onLabels.length) with
        | error err =>
          right
          simp only [NodeState.new] at hnew
          split at hnew
          · rename_i hid
            cases hnew
            rw [identifiersFromLabelNode_error hid]
          · cases hnew
        | ok state =>
          left
          refine ⟨_, rfl, rfl, ⟨state, rfl, rfl⟩, ?_, ?_⟩
          · intro f hfh
            simp [hfh] at hhead
            exact hhead
          · simp only [NodeState.new] at hnew
            split at hnew
            · cases hnew
            · exact ⟨_, by assumption⟩
  | _ => simp [Node.isOnLabel] at h

theorem leave_after (node : Node) (stack : List Node) (labels : List (Node × NodeState))
    (hstack : ∀ f ∈ stack, f.isFunction = true) :
    leave node { functionStack := if node.isFunction then node :: stack else stack
                 onLabels := labels } = { functionStack := stack, onLabels := labels } := by
  cases hn : node.isFunction with
  | true => simp [leave, Node.same_refl]
  | false =>
    cases stack with
    | nil => simp [leave]
    | cons f rest =>
      simp [leave, Node.same_function_of_not (hstack f (by simp)) hn]

theorem traverseList_nil (st : TraverseState) : traverseList uuid [] st = .ok st := by
  rw [traverseList]

theorem traverseList_cons (node : Node) (rest : List Node) (st : TraverseState) :
    traverseList uuid (node :: rest) st =
      match traverse uuid node st with
      | .error e => .error e
      | .ok st1 => traverseList uuid rest st1 := by
  rw [traverseList]

/-- The walk in one equation for every type of node. -/
theorem traverse_eq (node : Node) (st : TraverseState) :
    traverse uuid node st =
      match enter uuid node st with
      | .error e => .error e
      | .ok (st1, true) => .ok (leave node st1)
      | .ok (st1, false) => (traverseList uuid node.children st1).map (leave node) := by
  cases node with
  | Identifier id =>
    rw [traverse]
    cases enter uuid (.Identifier id) st with
    | error e => rfl
    | ok r =>
      obtain ⟨st1, skip⟩ := r
      cases skip <;> simp [Node.children, traverseList_nil, Except.map]
  | SequenceExpression s e es =>
    rw [traverse]
    cases enter uuid (.SequenceExpression s e es) st with
    | error e => rfl
    | ok r =>
      obtain ⟨st1, skip⟩ := r
      cases skip <;> simp [Node.children]
  | ExpressionStatement s e x =>
    rw [traverse]
    cases enter uuid (.ExpressionStatement s e x) st with
    | error e => rfl
    | ok r =>
      obtain ⟨st1, skip⟩ := r
      cases skip
      · simp only [Node.children, traverseList_cons, traverseList_nil]
        cases traverse uuid x st1 <;> rfl
      · rfl
  | LabeledStatement s e l b =>
    rw [traverse]
    cases enter uuid (.LabeledStatement s e l b) st with
    | error e => rfl
    | ok r =>
      obtain ⟨st1, skip⟩ := r
      cases skip
      · simp only [Node.children, traverseList_cons, traverseList_nil]
        have hleaf : traverse uuid (.Identifier l) st1 = traverseLeaf uuid (.Identifier l) st1 := by
          rw [traverse, traverseLeaf]
          cases enter uuid (.Identifier l) st1 with
          | error e => rfl
          | ok r =>
            obtain ⟨st2, skip⟩ := r
            cases skip <;> rfl
        rw [hleaf]
        cases traverseLeaf uuid (.Identifier l) st1 with
        | error e => rfl
        | ok st2 =>
          simp only
          cases traverse uuid b st2 <;> rfl
      · rfl
  | Function k s e a cs =>
    rw [traverse]
    cases enter uuid (.Function k s e a cs) st with
    | error e => rfl
    | ok r =>
      obtain ⟨st1, skip⟩ := r
      cases skip <;> simp [Node.children]
  | Other s e cs =>
    rw [traverse]
    cases enter uuid (.Other s e cs) st with
    | error e => rfl
    | ok r =>
      obtain ⟨st1, skip⟩ := r
      cases skip <;> simp [Node.children]

theorem markersOf_eq (node : Node) :
    markersOf node = if node.isOnLabel then [node] else markersOfList node.children := by
  cases node with
  | Identifier id => simp [markersOf, Node.isOnLabel, Node.children, markersOfList]
  | SequenceExpression s e es => simp [markersOf, Node.isOnLabel, Node.children]
  | ExpressionStatement s e x => simp [markersOf, Node.isOnLabel, Node.children, markersOfList]
  | LabeledStatement s e l b =>
    simp [markersOf, Node.isOnLabel, Node.children, markersOfList]
  | Function k s e a cs => simp [markersOf, Node.isOnLabel, Node.children]
  | Other s e cs => simp [markersOf, Node.isOnLabel, Node.children]


theorem labelStates_length {k : Nat} {ms : List Node} {new : List (Node × NodeState)}
    (h : labelStates uuid k ms = .ok new) : new.length = ms.length := by
  induction ms generalizing k new with
  | nil => simp [labelStates] at h; subst h; rfl
  | cons m ms ih =>
    simp only [labelStates] at h
    split at h
    · cases h
    · cases hrest : labelStates uuid (k + 1) ms with
      | error e => simp [hrest, Except.map] at h
      | ok rest =>
        simp [hrest, Except.map] at h
        subst h
        simp [ih hrest]

theorem labelStates_append {k : Nat} {a b : List Node} {na nb : List (Node × NodeState)}
    (ha : labelStates uuid k a = .ok na) (hb : labelStates uuid (k + a.length) b = .ok nb) :
    labelStates uuid k (a ++ b) = .ok (na ++ nb) := by
  induction a generalizing k na with
  | nil =>
    simp [labelStates] at ha; subst ha
    simpa using hb
  | cons m ms ih =>
    simp only [labelStates] at ha
    simp only [List.cons_append, labelStates]
    split at ha
    · cases ha
    · rename_i state hstate
      simp only [List.append_eq]
      cases hrest : labelStates uuid (k + 1) ms with
      | error e => simp [hrest, Except.map] at ha
      | ok rest =>
        simp [hrest, Except.map] at ha
        subst ha
        have hb2 : labelStates uuid (k + 1 + ms.length) b = .ok nb := by
          rw [← hb]; congr 1; simp; omega
        simp [ih hrest hb2, Except.map]

/-- The walk of a list of trees meets `WalkSpec` when the walk of each of them
does. -/
theorem traverseList_spec (cs : List Node)
    (hcs : ∀ c ∈ cs, ∀ st : TraverseState, (∀ f ∈ st.functionStack, f.isFunction = true) →
      WalkSpec uuid (markersOf c) (Inside c) st (traverse uuid c st))
    (st : TraverseState) (hst : ∀ f ∈ st.functionStack, f.isFunction = true) :
    WalkSpec uuid (markersOfList cs) (fun encl m => ∃ c ∈ cs, Inside c encl m) st
      (traverseList uuid cs st) := by
  induction cs generalizing st with
  | nil =>
    simp [traverseList_nil, WalkSpec, markersOfList, labelStates]
  | cons c cs ih =>
    rw [traverseList_cons]
    have hc := hcs c (by simp) st hst
    cases h1 : traverse uuid c st with
    | error e => rw [h1] at hc; exact hc
    | ok st1 =>
      rw [h1] at hc
      obtain ⟨hstack1, ⟨n1, hn1, hl1⟩, hin1⟩ := hc
      have hst1 : ∀ f ∈ st1.functionStack, f.isFunction = true := by rw [hstack1]; exact hst
      have hrest := ih (fun c' hc' => hcs c' (by simp [hc'])) st1 hst1
      simp only
      cases h2 : traverseList uuid cs st1 with
      | error e => rw [h2] at hrest; exact hrest
      | ok st2 =>
        rw [h2] at hrest
        obtain ⟨hstack2, ⟨n2, hn2, hl2⟩, hin2⟩ := hrest
        refine ⟨by rw [hstack2, hstack1], ⟨n1 ++ n2, ?_, by rw [hl2, hl1, List.append_assoc]⟩, ?_⟩
        · simp only [markersOfList]
          apply labelStates_append uuid hn1
          rw [← labelStates_length uuid hn1]
          rw [hl1, List.length_append] at hn2
          exact hn2
        · rintro encl m ⟨c', hc', hin⟩ hm
          rcases List.mem_cons.mp hc' with rfl | hc'
          · exact hin1 encl m hin hm
          · rw [← hstack1]
            exact hin2 encl m ⟨c', hc', hin⟩ hm


theorem Node.eq_of_type_identifier {x : Node} (h : x.type = NodeType.Identifier) :
    ∃ id, x = .Identifier id := by
  cases x with
  | Identifier id => exact ⟨id, rfl⟩
  | Function k s e a cs => cases k <;> simp [Node.type, FunctionKind.toNodeType] at h
  | _ => simp [Node.type] at h

theorem Inside.of_identifier {id : Identifier} {encl : List Node} {m : Node}
    (h : Inside (.Identifier id) encl m) : m = .Identifier id := by
  cases h with
  | self => rfl
  | child _ c encl m hc _ => simp [Node.children] at hc

/-- Below a marker with a payload of identifiers there is no marker. -/
theorem Inside.not_marker_of_payload {node c : Node} {ids : List Identifier}
    (hnode : identifiersFromLabelNode node = .ok ids) (hc : c ∈ node.children)
    {encl : List Node} {m : Node} (hin : Inside c encl m) : m.isOnLabel = false := by
  unfold identifiersFromLabelNode at hnode
  split at hnode
  · rename_i s e l s2 e2 x
    simp only [Node.children, List.mem_cons, List.mem_singleton, List.not_mem_nil, or_false] at hc
    rcases hc with rfl | rfl
    · rw [hin.of_identifier]; rfl
    · cases hin with
      | self => rfl
      | child _ c1 encl1 m hc1 hin1 =>
        simp only [Node.children, List.mem_singleton] at hc1
        subst hc1
        split at hnode
        · rw [hin1.of_identifier]; rfl
        · rename_i s3 e3 es
          split at hnode
          · cases hnode
          · rename_i hall
            cases hin1 with
            | self => rfl
            | child _ c2 encl2 m hc2 hin2 =>
              simp only [Node.children] at hc2
              have hty : c2.type = NodeType.Identifier := by
                simp only [List.any_eq_true, not_exists, not_and, bne_iff_ne, ne_eq,
                  Decidable.not_not] at hall
                exact hall c2 hc2
              obtain ⟨id, rfl⟩ := Node.eq_of_type_identifier hty
              rw [hin2.of_identifier]; rfl
        · cases hnode
  · cases hnode

/-- The walk of a tree: it fails with a `SyntaxError` only, and when it
succeeds the function stack is as before, the labels recorded are the markers
of the tree in source order, and every marker in the tree passed the checks of
`enter`. -/
theorem traverse_spec (node : Node) :
    ∀ st : TraverseState, (∀ f ∈ st.functionStack, f.isFunction = true) →
      WalkSpec uuid (markersOf node) (Inside node) st (traverse uuid node st) := by
  induction node using Node.induction_children with
  | step node ih =>
    intro st hst
    rw [traverse_eq, markersOf_eq]
    cases hon : node.isOnLabel with
    | true =>
      rcases enter_of_onLabel uuid hon st with ⟨st1, henter, hstack, ⟨state, hstate, hlabels⟩, hacc⟩ | herr
      · rw [henter]
        have hnf := Node.isFunction_of_isOnLabel hon
        have hleave : leave node st1 = { functionStack := st.functionStack, onLabels := st1.onLabels } := by
          have := leave_after node st.functionStack st1.onLabels hst
          rw [hnf] at this
          simp only [Bool.false_eq_true, if_false] at this
          rw [← this, ← hstack]
        simp only [hleave, WalkSpec, if_true]
        refine ⟨trivial, ⟨[(node, state)], ?_, hlabels⟩, ?_⟩
        · simp [labelStates, hstate, Except.map]
        · intro encl m hin hm
          cases hin with
          | self => simpa using hacc
          | child _ c encl1 m hc hin1 =>
            obtain ⟨_, ids, hids⟩ := hacc
            rw [Inside.not_marker_of_payload hids hc hin1] at hm
            cases hm
      · rw [herr]; rfl
    | false =>
      rw [enter_of_not_onLabel uuid hon st]
      simp only [Bool.false_eq_true, if_false]
      have hst1 : ∀ f ∈ (if node.isFunction then node :: st.functionStack else st.functionStack),
          f.isFunction = true := by
        intro f hf
        split at hf
        · rcases List.mem_cons.mp hf with rfl | hf
          · assumption
          · exact hst f hf
        · exact hst f hf
      have hlist := traverseList_spec uuid node.children ih
        { st with functionStack :=
            if node.isFunction then node :: st.functionStack else st.functionStack } hst1
      cases hres : traverseList uuid node.children
          { st with functionStack :=
              if node.isFunction then node :: st.functionStack else st.functionStack } with
      | error e => rw [hres] at hlist; exact hlist
      | ok st2 =>
        rw [hres] at hlist
        obtain ⟨hstack2, ⟨new, hnew, hlabels⟩, hin2⟩ := hlist
        have hleave : leave node st2 = { functionStack := st.functionStack, onLabels := st2.onLabels } := by
          rw [← leave_after node st.functionStack st2.onLabels hst]
          congr 1
          cases st2; simp_all
        simp only [Except.map, hleave, WalkSpec]
        refine ⟨trivial, ⟨new, hnew, hlabels⟩, ?_⟩
        intro encl m hin hm
        cases hin with
        | self => rw [hon] at hm; cases hm
        | child _ c encl1 m hc hin1 =>
          have := hin2 encl1 m ⟨c, hc, hin1⟩ hm
          simp only at this
          cases hf : node.isFunction <;> simpa [hf] using this

/-- `enter` succeeds on a marker that passes the checks. -/
theorem enter_of_accepted {node : Node} (h : node.isOnLabel = true) (st : TraverseState)
    (hacc : Accepted st.functionStack node) : ∃ st1, enter uuid node st = .ok (st1, true) := by
  obtain ⟨hhead, ids, hids⟩ := hacc
  obtain ⟨s, e, l, s2, e2, x, rfl⟩ := identifiersFromLabelNode_ok_shape hids
  have hnf : NodeType.LabeledStatement ∉ functionTypes := by decide
  cases hs : st.functionStack.head? with
  | none => simp [enter, h, hnf, hs, Node.type, NodeState.new, hids]
  | some f => simp [enter, h, hnf, hs, hhead f hs, Node.type, NodeState.new, hids]

theorem traverseList_complete (cs : List Node)
    (hcs : ∀ c ∈ cs, ∀ st : TraverseState, (∀ f ∈ st.functionStack, f.isFunction = true) →
      (∀ encl m, Inside c encl m → m.isOnLabel = true → Accepted (encl ++ st.functionStack) m) →
      ∃ st1, traverse uuid c st = .ok st1)
    (st : TraverseState) (hst : ∀ f ∈ st.functionStack, f.isFunction = true)
    (hacc : ∀ c ∈ cs, ∀ encl m, Inside c encl m → m.isOnLabel = true →
      Accepted (encl ++ st.functionStack) m) :
    ∃ st1, traverseList uuid cs st = .ok st1 := by
  induction cs generalizing st with
  | nil => exact ⟨st, traverseList_nil uuid st⟩
  | cons c cs ih =>
    rw [traverseList_cons]
    obtain ⟨st1, h1⟩ := hcs c (by simp) st hst (hacc c (by simp))
    have hspec := traverse_spec uuid c st hst
    rw [h1] at hspec
    obtain ⟨hstack1, -, -⟩ := hspec
    rw [h1]
    exact ih (fun c' hc' => hcs c' (by simp [hc'])) st1 (by rw [hstack1]; exact hst)
      (fun c' hc' => by rw [hstack1]; exact hacc c' (by simp [hc']))

/-- The walk of a tree succeeds when every marker in it passes the checks. -/
theorem traverse_complete (node : Node) :
    ∀ st : TraverseState, (∀ f ∈ st.functionStack, f.isFunction = true) →
      (∀ encl m, Inside node encl m → m.isOnLabel = true →
        Accepted (encl ++ st.functionStack) m) →
      ∃ st1, traverse uuid node st = .ok st1 := by
  induction node using Node.induction_children with
  | step node ih =>
    intro st hst hacc
    rw [traverse_eq]
    cases hon : node.isOnLabel with
    | true =>
      obtain ⟨st1, h1⟩ := enter_of_accepted uuid hon st (by simpa using hacc [] node (.self node) hon)
      rw [h1]
      exact ⟨_, rfl⟩
    | false =>
      rw [enter_of_not_onLabel uuid hon st]
      simp only [Bool.false_eq_true, if_false]
      have hst1 : ∀ f ∈ (if node.isFunction then node :: st.functionStack else st.functionStack),
          f.isFunction = true := by
        intro f hf
        split at hf
        · rcases List.mem_cons.mp hf with rfl | hf
          · assumption
          · exact hst f hf
        · exact hst f hf
      obtain ⟨st2, h2⟩ := traverseList_complete uuid node.children ih
        { st with functionStack :=
            if node.isFunction then node :: st.functionStack else st.functionStack } hst1
        (by
          intro c hc encl m hin hm
          have := hacc _ m (.child node c encl m hc hin) hm
          simp only
          cases hf : node.isFunction <;> simpa [hf] using this)
      rw [h2]
      exact ⟨_, rfl⟩

/-! ## The scanner inside `parse` -/

theorem Inside.body_ne_nil {ast : Program} {encl : List Node} {m : Node}
    (hin : Inside ast.toNode encl m) (hm : m.isOnLabel = true) : ast.body ≠ [] := by
  intro hbody
  cases hin with
  | self => simp [Program.toNode, Node.isOnLabel] at hm
  | child _ c encl1 m hc hin1 => simp [Program.toNode, Node.children, hbody] at hc

/-- The scanner: what `parseBlocks` has done when it succeeds. -/
theorem parseBlocks_ok {source : JsString} {ast : Program} {scopes : List (List Reference)}
    {blocks : List Block} {states : List NodeState}
    (h : parseBlocks uuid source ast scopes = .ok (blocks, states)) :
    ∃ first labels, ast.body.head? = some first ∧ first.isOnLabel = true ∧
      labelStates uuid 0 (markersOf ast.toNode) = .ok labels ∧
      blocks = onBlocks source.length ((sortLabels labels).map Prod.fst) ∧
      classify blocks (references ((sortLabels labels).map Prod.fst) scopes)
        ((sortLabels labels).map Prod.snd) = .ok states ∧
      ∀ encl m, Inside ast.toNode encl m → m.isOnLabel = true → Accepted encl m := by
  unfold parseBlocks at h
  split at h
  · cases h
  · rename_i first hfirst
    split at h
    · cases h
    · rename_i hcheck
      have hon : first.isOnLabel = true := by
        simp only [Bool.or_eq_true, Bool.not_eq_true', not_or, Bool.not_eq_false] at hcheck
        exact hcheck.2
      have hspec := traverse_spec uuid ast.toNode { functionStack := [], onLabels := [] }
        (by simp)
      simp only [traverseProgram] at h
      simp only [Program.toNode] at hspec
      split at h
      · cases h
      · rename_i st hst
        rw [hst] at hspec
        obtain ⟨hstack, ⟨new, hnew, hlabels⟩, hacc⟩ := hspec
        simp only [List.nil_append, List.length_nil] at hlabels hnew
        subst hlabels
        split at h
        · cases h
        · split at h
          · cases h
          · rename_i states1 hclass
            simp only [Except.ok.injEq, Prod.mk.injEq] at h
            obtain ⟨rfl, rfl⟩ := h
            refine ⟨first, st.onLabels, hfirst, hon, hnew, rfl, hclass, ?_⟩
            intro encl m hin hm
            simpa using hacc encl m hin hm

/-- A marker that fails the checks of `enter` makes `parseBlocks` fail. -/
theorem parseBlocks_of_rejected (source : JsString) (ast : Program) (scopes : List (List Reference))
    {encl : List Node} {m : Node} (hin : Inside ast.toNode encl m) (hm : m.isOnLabel = true)
    (hrej : ¬ Accepted encl m) : parseBlocks uuid source ast scopes = .error .SyntaxError := by
  have hbody := hin.body_ne_nil hm
  unfold parseBlocks
  cases hb : ast.body with
  | nil => exact absurd hb hbody
  | cons first rest =>
    simp only [List.head?_cons]
    split
    · rfl
    · have hspec := traverse_spec uuid ast.toNode { functionStack := [], onLabels := [] }
        (by simp)
      simp only [traverseProgram]
      simp only [Program.toNode] at hspec hin
      split
      · rename_i e he
        rw [he] at hspec
        rw [show e = JsError.SyntaxError from hspec]
      · rename_i st hst
        rw [hst] at hspec
        exact absurd (by simpa using hspec.2.2 encl m hin hm) hrej

theorem parse_of_parseBlocks_error {source : JsString} {ast : Program}
    {scopes : List (List Reference)} {e : JsError}
    (h : parseBlocks uuid source ast scopes = .error e) :
    parse uuid source ast scopes = .error e := by
  simp [parse, h]

/-! ## The classification loop -/

theorem Grows.refl (s : NodeState) : Grows s s :=
  ⟨rfl, rfl, rfl, rfl, List.Subset.refl _, List.Subset.refl _, id⟩

theorem Grows.trans {a b c : NodeState} (h1 : Grows a b) (h2 : Grows b c) : Grows a c := by
  obtain ⟨a1, a2, a3, a4, a5, a6, a7⟩ := h1
  obtain ⟨b1, b2, b3, b4, b5, b6, b7⟩ := h2
  exact ⟨b1.trans a1, b2.trans a2, b3.trans a3, b4.trans a4, a5.trans b5, a6.trans b6,
    fun h => b7 (a7 h)⟩

theorem NameSet.subset_add (s : NameSet) (name : String) : s ⊆ NameSet.add s name := by
  unfold NameSet.add
  split
  · exact List.Subset.refl _
  · exact List.subset_append_left _ _

theorem NameSet.mem_add (s : NameSet) (name : String) : name ∈ NameSet.add s name := by
  unfold NameSet.add
  split
  · rename_i h; simpa using h
  · simp

theorem NameSet.mem_add_iff (s : NameSet) (name x : String) :
    x ∈ NameSet.add s name ↔ x ∈ s ∨ x = name := by
  unfold NameSet.add
  split
  · rename_i h
    have : name ∈ s := by simpa using h
    constructor
    · exact Or.inl
    · rintro (h | rfl) <;> assumption
  · simp

theorem forall₂_refl_of {α : Type} {R : α → α → Prop} (hR : ∀ a, R a a) (l : List α) :
    List.Forall₂ R l l := by
  induction l with
  | nil => exact .nil
  | cons a l ih => exact .cons (hR a) ih

theorem forall₂_set_right {α : Type} {R : α → α → Prop} {a b : List α} (h : List.Forall₂ R a b)
    {i : Nat} {s x : α} (hs : a[i]? = some s) (hx : R s x) : List.Forall₂ R a (b.set i x) := by
  induction h generalizing i with
  | nil => simp at hs
  | cons hab _ ih =>
    cases i with
    | zero =>
      simp only [List.getElem?_cons_zero, Option.some.injEq] at hs
      subst hs
      exact .cons hx (by assumption)
    | succ i =>
      simp only [List.getElem?_cons_succ] at hs
      exact .cons hab (ih hs)

/-- The three things one turn of the loop can do. -/
theorem classifyReference_cases {onBlocks : List Block} {nodeState nodeState1 : List NodeState}
    {ref : Reference} (h : classifyReference onBlocks nodeState ref = .ok nodeState1) :
    nodeState1 = nodeState ∨
    (∃ i s, nodeState[i]? = some s ∧ nodeState1 = nodeState.set i { s with sessionRequired := true }) ∨
    (∃ i j si sj, i ≠ j ∧ nodeState[i]? = some si ∧ nodeState[j]? = some sj ∧
      nodeState1 = (nodeState.set i { si with inNames := si.inNames.add ref.identifier.name }).set j
        { sj with outNames := sj.outNames.add ref.identifier.name }) := by
  unfold classifyReference at h
  split at h
  · left; cases h; rfl
  · simp only at h
    split at h
    · cases h
    · split at h
      · left; cases h; rfl
      · rename_i hne
        split at h
        · rename_i i j hi hj
          split at h
          · rename_i si sj hsi hsj
            split at h
            · right; left
              cases h
              exact ⟨i, si, hsi, rfl⟩
            · split at h
              · left; cases h; rfl
              · right; right
                cases h
                refine ⟨i, j, si, sj, ?_, hsi, hsj, rfl⟩
                rintro rfl
                exact hne (hi.trans hj.symm)
          · cases h
        · cases h

theorem classifyReference_grows {onBlocks : List Block} {nodeState nodeState1 : List NodeState}
    {ref : Reference} (h : classifyReference onBlocks nodeState ref = .ok nodeState1) :
    List.Forall₂ Grows nodeState nodeState1 := by
  rcases classifyReference_cases h with rfl | ⟨i, s, hs, rfl⟩ | ⟨i, j, si, sj, hij, hsi, hsj, rfl⟩
  · exact forall₂_refl_of Grows.refl _
  · exact forall₂_set_right (forall₂_refl_of Grows.refl _) hs
      ⟨rfl, rfl, rfl, rfl, List.Subset.refl _, List.Subset.refl _, fun _ => rfl⟩
  · refine forall₂_set_right (forall₂_set_right (forall₂_refl_of Grows.refl _) hsi ?_) hsj ?_
    · exact ⟨rfl, rfl, rfl, rfl, NameSet.subset_add _ _, List.Subset.refl _, id⟩
    · exact ⟨rfl, rfl, rfl, rfl, List.Subset.refl _, NameSet.subset_add _ _, id⟩

theorem Grows.forall₂_trans {l1 l2 l3 : List NodeState}
    (h1 : List.Forall₂ Grows l1 l2) (h2 : List.Forall₂ Grows l2 l3) : List.Forall₂ Grows l1 l3 := by
  induction h1 generalizing l3 with
  | nil => cases h2; exact .nil
  | cons hab _ ih =>
    cases h2 with
    | cons hbc h2 => exact .cons (hab.trans hbc) (ih h2)

theorem classify_grows {onBlocks : List Block} {refs : List Reference}
    {nodeState nodeState1 : List NodeState}
    (h : classify onBlocks refs nodeState = .ok nodeState1) :
    List.Forall₂ Grows nodeState nodeState1 := by
  induction refs generalizing nodeState with
  | nil => simp only [classify] at h; cases h; exact forall₂_refl_of Grows.refl _
  | cons ref rest ih =>
    simp only [classify] at h
    split at h
    · cases h
    · rename_i ns1 h1
      exact Grows.forall₂_trans (classifyReference_grows h1) (ih h)

/-! ## Blocks and their states -/

theorem onBlocks_length (n : Nat) (ls : List Node) : (onBlocks n ls).length = ls.length := by
  simp [onBlocks]

theorem onBlocks_getElem (n : Nat) (ls : List Node) (i : Nat) (h : i < ls.length) :
    (onBlocks n ls)[i]? =
      some { label := ls[i]
             start := ls[i].end_
             end_ := if i = ls.length - 1 then n else nextStart ls i } := by
  simp [onBlocks, List.getElem?_enum, List.getElem?_eq_getElem h]

theorem onBlocks_labels (n : Nat) (ls : List Node) :
    List.Forall₂ (fun (b : Block) (m : Node) => b.label = m ∧ b.start = m.end_) (onBlocks n ls) ls := by
  rw [List.forall₂_iff_get]
  refine ⟨onBlocks_length n ls, ?_⟩
  intro i h1 h2
  have h := onBlocks_getElem n ls i h2
  rw [List.getElem?_eq_getElem h1, Option.some.injEq] at h
  simp only [List.get_eq_getElem, h, and_self]

theorem labelStates_fst {k : Nat} {ms : List Node} {new : List (Node × NodeState)}
    (h : labelStates uuid k ms = .ok new) : new.map Prod.fst = ms := by
  induction ms generalizing k new with
  | nil => simp [labelStates] at h; subst h; rfl
  | cons m ms ih =>
    simp only [labelStates] at h
    split at h
    · cases h
    · cases hrest : labelStates uuid (k + 1) ms with
      | error e => simp [hrest, Except.map] at h
      | ok rest =>
        simp [hrest, Except.map] at h
        subst h
        simp [ih hrest]

theorem labelStates_getElem {k : Nat} {ms : List Node} {new : List (Node × NodeState)}
    (h : labelStates uuid k ms = .ok new) (i : Nat) (hi : i < new.length) :
    NodeState.new new[i].1 (uuid (k + i)) = .ok new[i].2 := by
  induction ms generalizing k new i with
  | nil => simp [labelStates] at h; subst h; simp at hi
  | cons m ms ih =>
    simp only [labelStates] at h
    split at h
    · cases h
    · rename_i state hstate
      cases hrest : labelStates uuid (k + 1) ms with
      | error e => simp [hrest, Except.map] at h
      | ok rest =>
        simp [hrest, Except.map] at h
        subst h
        cases i with
        | zero => simpa using hstate
        | succ i =>
          have := ih hrest i (by simpa using hi)
          simp only [List.getElem_cons_succ]
          rw [← this]; congr 2; omega

theorem labelStates_mem {k : Nat} {ms : List Node} {new : List (Node × NodeState)}
    (h : labelStates uuid k ms = .ok new) {p : Node × NodeState} (hp : p ∈ new) :
    ∃ id, NodeState.new p.1 id = .ok p.2 := by
  obtain ⟨i, hi, rfl⟩ := List.getElem_of_mem hp
  exact ⟨_, labelStates_getElem uuid h i hi⟩

theorem sortLabels_perm (labels : List (Node × NodeState)) : (sortLabels labels).Perm labels :=
  List.perm_insertionSort _ _

theorem sortLabels_sorted (labels : List (Node × NodeState)) :
    (sortLabels labels).Sorted labelLe := by
  have : IsTotal (Node × NodeState) labelLe := ⟨fun a b => Nat.le_total _ _⟩
  have : IsTrans (Node × NodeState) labelLe := ⟨fun a b c h1 h2 => Nat.le_trans h1 h2⟩
  exact List.sorted_insertionSort _ _

/-- The blocks and the states `parseBlocks` answers: each state is the state
made for the label of its block, after some turns of the loop. -/
theorem parseBlocks_states {source : JsString} {ast : Program} {scopes : List (List Reference)}
    {blocks : List Block} {states : List NodeState}
    (h : parseBlocks uuid source ast scopes = .ok (blocks, states)) :
    List.Forall₂ (fun b s => ∃ id s0, NodeState.new b.label id = .ok s0 ∧ Grows s0 s)
      blocks states := by
  obtain ⟨first, labels, -, -, hlabels, rfl, hclass, -⟩ := parseBlocks_ok uuid h
  have hgrow := classify_grows hclass
  have h1 := onBlocks_labels source.length ((sortLabels labels).map Prod.fst)
  rw [List.forall₂_map_right_iff] at h1
  rw [List.forall₂_map_left_iff] at hgrow
  rw [List.forall₂_iff_get] at h1 hgrow ⊢
  refine ⟨h1.1.trans hgrow.1, ?_⟩
  intro i hi1 hi2
  have hi3 : i < (sortLabels labels).length := h1.1 ▸ hi1
  have a := h1.2 i hi1 hi3
  have b := hgrow.2 i hi3 hi2
  obtain ⟨id, hid⟩ := labelStates_mem uuid hlabels
    ((sortLabels_perm labels).mem_iff.mp (List.get_mem (sortLabels labels) i hi3))
  exact ⟨id, _, by rw [a.1]; exact hid, b⟩

/-! ## The marker scanner: claims C1 to C4 -/

/-- A module whose first statement is no tier marker is refused with a
`SyntaxError`. -/
theorem parse_first_statement_not_marker (source : JsString) (ast : Program)
    (scopes : List (List Reference)) (first : Node) (hfirst : ast.body.head? = some first)
    (hmarker : first.isOnLabel = false) :
    parse uuid source ast scopes = .error .SyntaxError := by
  simp [parse, parseBlocks, hfirst, hmarker]

/-- C1, the module without statements: `ast.body[0]` is `undefined`, and reading
its `type` raises a `TypeError`, not the `SyntaxError` of line 47. -/
theorem parse_empty_module (uuid : Nat → String) (source : JsString) (start end_ : Nat)
    (scopes : List (List Reference)) :
    parse uuid source { start := start, end_ := end_, body := [] } scopes =
      .error .TypeError := by
  rfl

/-- C2, the module `on: foo`: `parse` succeeds, and the block's tier list is
`foo`, which is neither `server` nor `client`. -/
theorem parse_unknown_tier_accepted :
    parse uuid0 (utf16 "on: foo") unknownTierAst unknownTierScopes = .ok { server := [] } ∧
      (parseBlocks uuid0 (utf16 "on: foo") unknownTierAst unknownTierScopes).map
        (fun r => r.2.map fun state => state.sides) = .ok [["foo"]] := by
  constructor <;> rfl

theorem payloadNames_foldr_of_all {expressions : List Node}
    (h : expressions.any (fun node => node.type != NodeType.Identifier) = false) :
    expressions.foldr
      (fun node names =>
        match node, names with
        | .Identifier id, some rest => some (id.name :: rest)
        | _, _ => none)
      (some []) =
    some ((expressions.filterMap fun node =>
          match node with
          | .Identifier id => some id
          | _ => none).map fun id => id.name) := by
  induction expressions with
  | nil => rfl
  | cons x xs ih =>
    simp only [List.any_cons, Bool.or_eq_false_iff, bne_eq_false_iff_eq] at h
    obtain ⟨id, rfl⟩ := Node.eq_of_type_identifier (by simpa using h.1)
    simp only [List.foldr_cons, ih h.2]
    simp

/-- The tier list `identifiersFromLabelNode` answers is the list of the names of
the payload. -/
theorem payloadNames_of_ok {m : Node} {ids : List Identifier}
    (h : identifiersFromLabelNode m = .ok ids) :
    payloadNames m = some (ids.map fun id => id.name) := by
  unfold identifiersFromLabelNode at h
  split at h
  · split at h
    · cases h; rfl
    · split at h
      · cases h
      · rename_i hall
        cases h
        simp only [payloadNames]
        exact payloadNames_foldr_of_all (by simpa using hall)
    · cases h
  · cases h

theorem NodeState.new_ok {m : Node} {id : String} {s : NodeState}
    (h : NodeState.new m id = .ok s) :
    ∃ ids, identifiersFromLabelNode m = .ok ids ∧
      s = { sideIdentifiers := ids, global := false, sessionRequired := false,
            sides := ids.map fun id => id.name, inNames := [], outNames := [], id := id } := by
  unfold NodeState.new at h
  split at h
  · cases h
  · rename_i ids hids
    cases h
    exact ⟨ids, hids, rfl⟩

theorem payloadNames_foldr_some {expressions : List Node} {names : List String}
    (h : expressions.foldr
      (fun node names =>
        match node, names with
        | .Identifier id, some rest => some (id.name :: rest)
        | _, _ => none)
      (some []) = some names) :
    expressions.any (fun node => node.type != NodeType.Identifier) = false := by
  induction expressions generalizing names with
  | nil => rfl
  | cons x xs ih =>
    simp only [List.foldr_cons] at h
    split at h
    · rename_i id rest hrest
      simp only [List.any_cons, Bool.or_eq_false_iff, bne_eq_false_iff_eq]
      exact ⟨by simp [Node.type], ih hrest⟩
    · cases h

/-- A marker with a payload of identifiers passes `identifiersFromLabelNode`. -/
theorem identifiersFromLabelNode_of_payloadNames {m : Node} {names : List String}
    (h : payloadNames m = some names) : ∃ ids, identifiersFromLabelNode m = .ok ids := by
  unfold payloadNames at h
  split at h
  · exact ⟨_, rfl⟩
  · rename_i s e l s2 e2 es
    have hall := payloadNames_foldr_some h
    simp [identifiersFromLabelNode, hall]
  · cases h

/-- C3: a tier marker whose nearest enclosing function-like node is not
asynchronous makes `parse` fail (with the `SyntaxError` of line 60); and when
every marker of the module is at top level or has an asynchronous nearest
enclosing function, and has a payload of identifiers, the traversal raises no
error. -/
theorem marker_placement (source : JsString) (ast : Program) (scopes : List (List Reference)) :
    (∀ encl m f, Inside ast.toNode encl m → m.isOnLabel = true → encl.head? = some f →
      f.async = false → parse uuid source ast scopes = .error .SyntaxError) ∧
    ((∀ encl m, Inside ast.toNode encl m → m.isOnLabel = true →
        (encl.head? = none ∨ ∃ f, encl.head? = some f ∧ f.async = true) ∧
          ∃ names, payloadNames m = some names) →
      ∃ st, traverseProgram uuid ast = .ok st ∧ st.functionStack = []) := by
  constructor
  · intro encl m f hin hm hhead hasync
    apply parse_of_parseBlocks_error
    apply parseBlocks_of_rejected uuid source ast scopes hin hm
    rintro ⟨hacc, -⟩
    rw [hacc f hhead] at hasync
    cases hasync
  · intro hall
    have hspec := traverse_spec uuid ast.toNode { functionStack := [], onLabels := [] } (by simp)
    obtain ⟨st, hst⟩ := traverse_complete uuid ast.toNode { functionStack := [], onLabels := [] }
      (by simp) (by
        intro encl m hin hm
        obtain ⟨hplace, names, hnames⟩ := hall encl m hin hm
        refine ⟨?_, identifiersFromLabelNode_of_payloadNames hnames⟩
        intro f hf
        simp only [List.append_nil] at hf
        rcases hplace with hnone | ⟨g, hg, hasync⟩
        · rw [hnone] at hf; cases hf
        · rw [hg] at hf; cases hf; exact hasync)
    rw [hst] at hspec
    exact ⟨st, hst, hspec.1⟩


/-- The markers of a module the traversal accepts pass the checks of
`enter`. -/
theorem accepted_of_traverseProgram {ast : Program} {st : TraverseState}
    (h : traverseProgram uuid ast = .ok st) {encl : List Node} {m : Node}
    (hin : Inside ast.toNode encl m) (hm : m.isOnLabel = true) :
    (encl.head? = none ∨ ∃ f, encl.head? = some f ∧ f.async = true) ∧
      ∃ names, payloadNames m = some names := by
  have hspec := traverse_spec uuid ast.toNode { functionStack := [], onLabels := [] } (by simp)
  simp only [traverseProgram] at h
  simp only [Program.toNode] at hspec hin
  rw [h] at hspec
  obtain ⟨hplace, ids, hids⟩ := hspec.2.2 encl m hin hm
  refine ⟨?_, _, payloadNames_of_ok hids⟩
  simp only [List.append_nil] at hplace
  cases hh : encl.head? with
  | none => exact Or.inl rfl
  | some f => exact Or.inr ⟨f, rfl, hplace f hh⟩

theorem syncFunction_inside :
    Inside syncFunctionAst.toNode
      [.Function .FunctionDeclaration 11 40 false
        [.Identifier ⟨20, 21, "f"⟩, .Other 24 40 [marker 28 "client"]]]
      (marker 28 "client") := by
  have h1 : Inside (.Other 24 40 [marker 28 "client"]) [] (marker 28 "client") :=
    .child _ _ [] _ (by simp [Node.children]) (.self _)
  have h2 := Inside.child
    (.Function .FunctionDeclaration 11 40 false
      [.Identifier ⟨20, 21, "f"⟩, .Other 24 40 [marker 28 "client"]]) _ [] _
    (by simp [Node.children]) h1
  have h3 := Inside.child syncFunctionAst.toNode _ _ _
    (by simp [Node.children, syncFunctionAst, Program.toNode]) h2
  exact h3

theorem marker_placement_witness :
    parse uuid0 syncFunctionSource syncFunctionAst syncFunctionScopes = .error .SyntaxError ∧
      ∃ st, traverseProgram uuid0 example1Ast = .ok st ∧ st.functionStack = [] :=
  ⟨(marker_placement uuid0 syncFunctionSource syncFunctionAst syncFunctionScopes).1 _ _ _
      syncFunction_inside rfl rfl rfl,
    (marker_placement uuid0 example1Source example1Ast example1Scopes).2
      fun _ _ hin hm =>
        accepted_of_traverseProgram uuid0 (rfl : traverseProgram uuid0 example1Ast = .ok _) hin hm⟩

/-- C4: a tier marker whose body is no expression statement, or whose
expression is neither an identifier nor a comma-sequence of identifiers only,
makes `parse` fail (with a `SyntaxError`); and in a successful run the tier
list of every block is the list of the names of its marker's payload, left to
right. -/
theorem marker_payload (source : JsString) (ast : Program) (scopes : List (List Reference)) :
    (∀ encl m, Inside ast.toNode encl m → m.isOnLabel = true → payloadNames m = none →
      parse uuid source ast scopes = .error .SyntaxError) ∧
    (∀ blocks states, parseBlocks uuid source ast scopes = .ok (blocks, states) →
      List.Forall₂ (fun b s => payloadNames b.label = some s.sides) blocks states) := by
  constructor
  · intro encl m hin hm hnone
    apply parse_of_parseBlocks_error
    apply parseBlocks_of_rejected uuid source ast scopes hin hm
    rintro ⟨-, ids, hids⟩
    rw [payloadNames_of_ok hids] at hnone
    cases hnone
  · intro blocks states h
    refine (parseBlocks_states uuid h).imp ?_
    rintro b s ⟨id, s0, hnew, hgrow⟩
    obtain ⟨ids, hids, rfl⟩ := NodeState.new_ok hnew
    rw [payloadNames_of_ok hids, hgrow.2.2.1]

theorem marker_payload_witness :
    parse uuid0 (utf16 "on: 1") numberPayloadAst [] = .error .SyntaxError ∧
      ∃ blocks states,
        parseBlocks uuid0 twoTiersSource twoTiersAst twoTiersScopes = .ok (blocks, states) ∧
        states.map (fun s => s.sides) = [["server", "client"]] ∧
        List.Forall₂ (fun b s => payloadNames b.label = some s.sides) blocks states :=
  ⟨(marker_payload uuid0 (utf16 "on: 1") numberPayloadAst []).1 [] _
      (.child numberPayloadAst.toNode _ [] _ (List.mem_singleton.mpr rfl) (.self _)) rfl rfl,
    _, _, rfl, rfl,
    (marker_payload uuid0 twoTiersSource twoTiersAst twoTiersScopes).2 _ _ rfl⟩

/-! ## The blocks: their order and their spans -/

/-- The labels of the blocks are the markers of the module, sorted by their
start offset. -/
theorem parseBlocks_labels {source : JsString} {ast : Program} {scopes : List (List Reference)}
    {blocks : List Block} {states : List NodeState}
    (h : parseBlocks uuid source ast scopes = .ok (blocks, states)) :
    (blocks.map fun b => b.label).Perm (markersOf ast.toNode) ∧
      (blocks.map fun b => b.label).Sorted (fun a b => a.start ≤ b.start) ∧
      blocks = onBlocks source.length (blocks.map fun b => b.label) := by
  obtain ⟨first, labels, -, -, hlabels, rfl, -, -⟩ := parseBlocks_ok uuid h
  have hmap : (onBlocks source.length ((sortLabels labels).map Prod.fst)).map (fun b => b.label) =
      (sortLabels labels).map Prod.fst := by
    have := onBlocks_labels source.length ((sortLabels labels).map Prod.fst)
    have h2 : List.Forall₂ (fun (b : Block) (m : Node) => b.label = m)
        (onBlocks source.length ((sortLabels labels).map Prod.fst))
        ((sortLabels labels).map Prod.fst) := this.imp fun _ _ hab => hab.1
    rw [← List.forall₂_map_left_iff (f := fun (b : Block) => b.label)] at h2
    exact List.forall₂_eq_eq_eq ▸ h2
  rw [hmap]
  refine ⟨?_, ?_, rfl⟩
  · rw [← labelStates_fst uuid hlabels]
    exact (sortLabels_perm labels).map _
  · have := sortLabels_sorted labels
    exact List.pairwise_map.mpr this


theorem nextStart_of_lt (ls : List Node) (i : Nat) (h : i + 1 < ls.length) :
    nextStart ls i = ls[i + 1].start := by
  simp [nextStart, List.getElem?_eq_getElem h]

theorem markersOf_program_ne_nil {ast : Program} {first : Node}
    (hfirst : ast.body.head? = some first) (hon : first.isOnLabel = true) :
    markersOf ast.toNode ≠ [] := by
  cases hb : ast.body with
  | nil => simp [hb] at hfirst
  | cons a rest =>
    simp only [hb, List.head?_cons, Option.some.injEq] at hfirst
    subst hfirst
    simp [Program.toNode, hb, markersOf, markersOfList, markersOf_eq a, hon]

/-- The spans of the blocks: each block starts where its marker ends and ends
where the marker of the next block starts, the last one at the end of the
source; when no marker ends before it starts, a block ends before every later
block starts. -/
theorem parseBlocks_spans {source : JsString} {ast : Program} {scopes : List (List Reference)}
    {blocks : List Block} {states : List NodeState}
    (h : parseBlocks uuid source ast scopes = .ok (blocks, states)) :
    blocks ≠ [] ∧ (∀ b ∈ blocks, b.start = b.label.end_) ∧
      (∀ i b c, blocks[i]? = some b → blocks[i + 1]? = some c → b.end_ = c.label.start) ∧
      (∀ b, blocks.getLast? = some b → b.end_ = source.length) ∧
      ((∀ m ∈ markersOf ast.toNode, m.start ≤ m.end_) →
        blocks.Pairwise fun b c => b.end_ ≤ c.start) := by
  obtain ⟨hperm, hsorted, hblocks⟩ := parseBlocks_labels uuid h
  obtain ⟨first, labels, hfirst, hon, -, -, -, -⟩ := parseBlocks_ok uuid h
  generalize hls : (blocks.map fun b => b.label) = ls at hperm hsorted hblocks
  have hlen : blocks.length = ls.length := by rw [← hls]; simp
  have hget : ∀ i b, blocks[i]? = some b → ∃ hi : i < ls.length,
      b = { label := ls[i], start := ls[i].end_
            end_ := if i = ls.length - 1 then source.length else nextStart ls i } := by
    intro i b hb
    have hi : i < ls.length := by
      rw [← hlen]
      exact (List.getElem?_eq_some_iff.mp hb).1
    refine ⟨hi, ?_⟩
    rw [hblocks, onBlocks_getElem _ _ _ hi] at hb
    exact (Option.some.inj hb).symm
  have hne : blocks ≠ [] := by
    intro hnil
    have : ls = [] := by rw [← hls, hnil]; rfl
    rw [this] at hperm
    exact markersOf_program_ne_nil hfirst hon hperm.symm.eq_nil
  refine ⟨hne, ?_, ?_, ?_, ?_⟩
  · intro b hb
    obtain ⟨i, hi, rfl⟩ := List.getElem_of_mem hb
    obtain ⟨_, hb2⟩ := hget i _ (List.getElem?_eq_getElem hi)
    rw [hb2]
  · intro i b c hb hc
    obtain ⟨hi, rfl⟩ := hget i b hb
    obtain ⟨hi1, rfl⟩ := hget (i + 1) c hc
    have : i ≠ ls.length - 1 := by omega
    simp only [this, if_false]
    exact nextStart_of_lt ls i hi1
  · intro b hb
    rw [List.getLast?_eq_getElem?] at hb
    obtain ⟨hi, rfl⟩ := hget _ b hb
    simp [hlen]
  · intro hwf
    rw [List.pairwise_iff_getElem]
    intro i j hi hj hij
    obtain ⟨hi2, hbi⟩ := hget i _ (List.getElem?_eq_getElem hi)
    obtain ⟨hj2, hbj⟩ := hget j _ (List.getElem?_eq_getElem hj)
    rw [hbi, hbj]
    have : i ≠ ls.length - 1 := by omega
    simp only [this, if_false]
    rw [nextStart_of_lt ls i (by omega)]
    have hjwf : ls[j].start ≤ ls[j].end_ :=
      hwf _ (hperm.mem_iff.mp (List.getElem_mem _))
    have hsort : ls[i + 1].start ≤ ls[j].start := by
      rcases Nat.lt_or_ge (i + 1) j with hlt | hge
      · exact (List.pairwise_iff_getElem.mp hsorted) (i + 1) j (by omega) hj2 hlt
      · have : i + 1 = j := by omega
        subst this
        exact Nat.le_refl _
    exact Nat.le_trans hsort hjwf

/-! ## The fragments: claims C5 and C6 -/

theorem parse_ok {source : JsString} {ast : Program} {scopes : List (List Reference)}
    {out : Output} (h : parse uuid source ast scopes = .ok out) :
    ∃ blocks states, parseBlocks uuid source ast scopes = .ok (blocks, states) ∧
      out.server = ((blocks.zip states).filter fun p => p.2.sides.contains server).map
        fun p => fragment source p.1 p.2 := by
  unfold parse at h
  split at h
  · cases h
  · rename_i blocks states hb
    cases h
    exact ⟨blocks, states, hb, rfl⟩

/-- C5: in a successful run the list `server` holds, in the order of the blocks,
one fragment for each block whose tier list includes `server` and nothing else;
the blocks are in ascending order of the start offsets of their markers, and
when no marker ends before it starts every block ends before the later blocks
start. -/
theorem server_fragments (source : JsString) (ast : Program) (scopes : List (List Reference))
    (out : Output) (h : parse uuid source ast scopes = .ok out) :
    ∃ blocks states, parseBlocks uuid source ast scopes = .ok (blocks, states) ∧
      blocks.length = states.length ∧
      out.server = ((blocks.zip states).filter fun p => p.2.sides.contains server).map
        (fun p => fragment source p.1 p.2) ∧
      (blocks.map fun b => b.label.start).Sorted (· ≤ ·) ∧
      ((∀ m ∈ markersOf ast.toNode, m.start ≤ m.end_) →
        blocks.Pairwise fun b c => b.end_ ≤ c.start) := by
  obtain ⟨blocks, states, hb, hout⟩ := parse_ok uuid h
  refine ⟨blocks, states, hb, (parseBlocks_states uuid hb).length_eq, hout, ?_,
    (parseBlocks_spans uuid hb).2.2.2.2⟩
  have := (parseBlocks_labels uuid hb).2.1
  rw [List.Sorted, List.pairwise_map] at this ⊢
  exact this

theorem server_fragments_witness :
    ∃ blocks states,
      parseBlocks uuid0 example1Source example1Ast example1Scopes = .ok (blocks, states) ∧
      blocks.length = states.length ∧
      [({ id := "id1", sessionRequired := false,
          code := utf16 "\n; const \x7b x \x7d = __veqIn\n; \nconsole.log(x)\n; __veqOut = \x7b  \x7d\n;" } :
          Fragment)] =
        ((blocks.zip states).filter fun p => p.2.sides.contains server).map
          (fun p => fragment example1Source p.1 p.2) ∧
      (blocks.map fun b => b.label.start).Sorted (· ≤ ·) ∧
      ((∀ m ∈ markersOf example1Ast.toNode, m.start ≤ m.end_) →
        blocks.Pairwise fun b c => b.end_ ≤ c.start) :=
  server_fragments uuid0 example1Source example1Ast example1Scopes _ rfl

/-- The code units of a slice are those of the source from `start` on, up to
`end_`. -/
theorem slice_getElem? (source : JsString) (start end_ k : Nat) :
    (slice source start end_)[k]? =
      if k < end_ - start then source[start + k]? else none := by
  simp only [slice, List.getElem?_take, List.getElem?_drop]

theorem NameSet.add_nodup {s : NameSet} (h : s.Nodup) (name : String) :
    (NameSet.add s name).Nodup := by
  unfold NameSet.add
  split
  · exact h
  · rename_i hn
    rw [List.nodup_append]
    refine ⟨h, List.nodup_singleton _, ?_⟩
    intro a ha hb
    simp only [List.mem_singleton] at hb
    subst hb
    exact hn (by simpa using ha)

theorem forall_mem_set {α : Type} {P : α → Prop} {l : List α} (h : ∀ a ∈ l, P a) (i : Nat)
    {x : α} (hx : P x) : ∀ a ∈ l.set i x, P a := by
  intro a ha
  rcases List.mem_or_eq_of_mem_set ha with h1 | h1
  · exact h a h1
  · exact h1 ▸ hx

theorem classifyReference_nodup {onBlocks : List Block} {nodeState nodeState1 : List NodeState}
    {ref : Reference} (h : classifyReference onBlocks nodeState ref = .ok nodeState1)
    (hn : ∀ s ∈ nodeState, s.NamesNodup) : ∀ s ∈ nodeState1, s.NamesNodup := by
  rcases classifyReference_cases h with rfl | ⟨i, s, hs, rfl⟩ | ⟨i, j, si, sj, hij, hsi, hsj, rfl⟩
  · exact hn
  · exact forall_mem_set hn i (hn s (List.getElem?_mem hs))
  · have h1 := hn si (List.getElem?_mem hsi)
    have h2 := hn sj (List.getElem?_mem hsj)
    refine forall_mem_set (forall_mem_set hn i ?_) j ?_
    · exact ⟨NameSet.add_nodup h1.1 _, h1.2⟩
    · exact ⟨h2.1, NameSet.add_nodup h2.2 _⟩

theorem classify_nodup {onBlocks : List Block} {refs : List Reference}
    {nodeState nodeState1 : List NodeState}
    (h : classify onBlocks refs nodeState = .ok nodeState1)
    (hn : ∀ s ∈ nodeState, s.NamesNodup) : ∀ s ∈ nodeState1, s.NamesNodup := by
  induction refs generalizing nodeState with
  | nil => simp only [classify] at h; cases h; exact hn
  | cons ref rest ih =>
    simp only [classify] at h
    split at h
    · cases h
    · rename_i ns1 h1
      exact ih h (classifyReference_nodup h1 hn)

theorem parseBlocks_nodup {source : JsString} {ast : Program} {scopes : List (List Reference)}
    {blocks : List Block} {states : List NodeState}
    (h : parseBlocks uuid source ast scopes = .ok (blocks, states)) :
    ∀ s ∈ states, s.NamesNodup := by
  obtain ⟨first, labels, -, -, hlabels, -, hclass, -⟩ := parseBlocks_ok uuid h
  apply classify_nodup hclass
  intro s hs
  obtain ⟨p, hp, rfl⟩ := List.mem_map.mp hs
  obtain ⟨id, hid⟩ := labelStates_mem uuid hlabels ((sortLabels_perm labels).mem_iff.mp hp)
  obtain ⟨ids, -, hs0⟩ := NodeState.new_ok hid
  rw [hs0]
  exact ⟨List.nodup_nil, List.nodup_nil⟩

/-- C6: the `code` of the fragment of a block is, in this order, the binding
`const { names } = __veqIn` of the block's input names, there exactly when
the block has an input name; the source text from the block's start to its
end, code unit by code unit; and the assignment `__veqOut = { names }` of the
block's output names; each part follows a line break and `; `, and no name is
listed twice. -/
theorem fragment_code (source : JsString) (ast : Program) (scopes : List (List Reference))
    (out : Output) (h : parse uuid source ast scopes = .ok out) :
    ∃ blocks states, parseBlocks uuid source ast scopes = .ok (blocks, states) ∧
      List.Forall₂
        (fun (f : Fragment) (p : Block × NodeState) =>
          f.code =
            utf16 "\n; " ++
              (if p.2.inNames = [] then []
               else utf16 "const \x7b " ++ joinNames ", " p.2.inNames ++ utf16 " \x7d = __veqIn") ++
            utf16 "\n; " ++ slice source p.1.start p.1.end_ ++
            utf16 "\n; __veqOut = \x7b " ++ joinNames ", " p.2.outNames ++ utf16 " \x7d\n;" ∧
          (∀ k, (slice source p.1.start p.1.end_)[k]? =
            if k < p.1.end_ - p.1.start then source[p.1.start + k]? else none) ∧
          p.2.inNames.Nodup ∧ p.2.outNames.Nodup)
        out.server
        ((blocks.zip states).filter fun p => p.2.sides.contains server) := by
  obtain ⟨blocks, states, hb, hout⟩ := parse_ok uuid h
  refine ⟨blocks, states, hb, ?_⟩
  rw [hout, List.forall₂_map_left_iff]
  rw [List.forall₂_same]
  intro p hp
  have hmem : p.2 ∈ states := (List.of_mem_zip (List.mem_of_mem_filter hp)).2
  refine ⟨?_, fun k => slice_getElem? source p.1.start p.1.end_ k,
    parseBlocks_nodup uuid hb p.2 hmem⟩
  simp only [fragment, fragmentCode]
  cases hin : p.2.inNames with
  | nil => simp [utf16]
  | cons a l => simp

theorem fragment_code_witness :
    ∃ blocks states,
      parseBlocks uuid0 astralSource astralAst astralScopes = .ok (blocks, states) ∧
      List.Forall₂
        (fun (f : Fragment) (p : Block × NodeState) =>
          f.code =
            utf16 "\n; " ++
              (if p.2.inNames = [] then []
               else utf16 "const \x7b " ++ joinNames ", " p.2.inNames ++ utf16 " \x7d = __veqIn") ++
            utf16 "\n; " ++ slice astralSource p.1.start p.1.end_ ++
            utf16 "\n; __veqOut = \x7b " ++ joinNames ", " p.2.outNames ++ utf16 " \x7d\n;" ∧
          (∀ k, (slice astralSource p.1.start p.1.end_)[k]? =
            if k < p.1.end_ - p.1.start then astralSource[p.1.start + k]? else none) ∧
          p.2.inNames.Nodup ∧ p.2.outNames.Nodup)
        [{ id := "id0", sessionRequired := false,
           code := utf16 "\n; \n; \nlet s = \"😀\"\n\n; __veqOut = \x7b  \x7d\n;" },
         { id := "id1", sessionRequired := true,
           code := utf16 "\n; \n; \nf(s)\n; __veqOut = \x7b  \x7d\n;" }]
        ((blocks.zip states).filter fun p => p.2.sides.contains server) :=
  fragment_code uuid0 astralSource astralAst astralScopes _ rfl

/-- The text of a block of a source with a character outside the basic plane:
the offsets count the two code units of the character, so the first block,
from 10 to 24, ends before the `o` of the second marker. -/
theorem slice_astral :
    astralSource.length = 39 ∧
      slice astralSource 10 24 = utf16 "\nlet s = \"😀\"\n" ∧
      slice astralSource 34 39 = utf16 "\nf(s)" := by
  refine ⟨rfl, rfl, rfl⟩

/-! ## The classification of a reference: claims C7 to C9 -/

/-- One turn of the loop on a resolved reference whose two blocks differ. -/
theorem classifyReference_of_blocks {blocks : List Block} {ns : List NodeState} {ref : Reference}
    {resolved : Variable} {def0 : Definition} {i j : Nat} {si sj : NodeState}
    (hres : ref.resolved = some resolved) (hdef : resolved.defs.head? = some def0)
    (hi : blockFromNode blocks ref.identifier = some i)
    (hj : blockFromNode blocks def0.name = some j) (hij : i ≠ j)
    (hsi : ns[i]? = some si) (hsj : ns[j]? = some sj) :
    classifyReference blocks ns ref =
      if si.sides.contains server && sj.sides.contains server then
        .ok (ns.set i { si with sessionRequired := true })
      else if si.sides.contains client && sj.sides.contains client then .ok ns
      else
        .ok ((ns.set i { si with inNames := si.inNames.add ref.identifier.name }).set j
          { sj with outNames := sj.outNames.add ref.identifier.name }) := by
  unfold classifyReference
  simp only [hres, hdef, hi, hj, Option.some.injEq, hij, if_false, hsi, hsj, List.all_cons,
    List.all_nil, Bool.and_true]

theorem getElem?_set_set_cases {α : Type} (l : List α) (i j : Nat) (a b : α) (hij : i ≠ j) (k : Nat) :
    ((l.set i a).set j b)[k]? =
      if k = j then (if j < l.length then some b else none)
      else if k = i then (if i < l.length then some a else none)
      else l[k]? := by
  rw [List.getElem?_set]
  by_cases hkj : k = j
  · subst hkj
    simp
  · have : ¬ j = k := fun h => hkj h.symm
    simp only [this, if_false, hkj]
    rw [List.getElem?_set]
    by_cases hki : k = i
    · subst hki
      simp
    · have : ¬ i = k := fun h => hki h.symm
      simp only [this, if_false, hki]

theorem forall₂_getElem? {α : Type} {R : α → α → Prop} {a b : List α}
    (h : List.Forall₂ R a b) {k : Nat} {s : α} (hs : a[k]? = some s) :
    ∃ t, b[k]? = some t ∧ R s t := by
  induction h generalizing k with
  | nil => simp at hs
  | cons hab _ ih =>
    cases k with
    | zero =>
      simp only [List.getElem?_cons_zero, Option.some.injEq] at hs
      subst hs
      exact ⟨_, by simp, hab⟩
    | succ k =>
      simp only [List.getElem?_cons_succ] at hs ⊢
      exact ih hs

/-- One turn of the loop on a reference that crosses tiers. -/
theorem classifyReference_cross {blocks : List Block} {ns : List NodeState} {ref : Reference}
    {resolved : Variable} {def0 : Definition} {i j : Nat} {si sj : NodeState}
    (hres : ref.resolved = some resolved) (hdef : resolved.defs.head? = some def0)
    (hi : blockFromNode blocks ref.identifier = some i)
    (hj : blockFromNode blocks def0.name = some j) (hij : i ≠ j)
    (hsi : ns[i]? = some si) (hsj : ns[j]? = some sj)
    (hserver : ¬ (server ∈ si.sides ∧ server ∈ sj.sides))
    (hclient : ¬ (client ∈ si.sides ∧ client ∈ sj.sides)) :
    classifyReference blocks ns ref =
      .ok ((ns.set i { si with inNames := si.inNames.add ref.identifier.name }).set j
        { sj with outNames := sj.outNames.add ref.identifier.name }) := by
  rw [classifyReference_of_blocks hres hdef hi hj hij hsi hsj]
  simp [hserver, hclient]

theorem classify_cross_mem {blocks : List Block} {ref : Reference}
    {resolved : Variable} {def0 : Definition} {i j : Nat}
    (hres : ref.resolved = some resolved) (hdef : resolved.defs.head? = some def0)
    (hi : blockFromNode blocks ref.identifier = some i)
    (hj : blockFromNode blocks def0.name = some j) (hij : i ≠ j)
    (refs : List Reference) (hmem : ref ∈ refs) :
    ∀ (ns ns2 : List NodeState) (si sj : NodeState), ns[i]? = some si → ns[j]? = some sj →
      ¬ (server ∈ si.sides ∧ server ∈ sj.sides) → ¬ (client ∈ si.sides ∧ client ∈ sj.sides) →
      classify blocks refs ns = .ok ns2 →
      ∃ ti tj, ns2[i]? = some ti ∧ ns2[j]? = some tj ∧
        ref.identifier.name ∈ ti.inNames ∧ ref.identifier.name ∈ tj.outNames := by
  induction refs with
  | nil => cases hmem
  | cons r rest ih =>
    intro ns ns2 si sj hsi hsj hserver hclient hclass
    simp only [classify] at hclass
    split at hclass
    · cases hclass
    · rename_i ns1 hstep
      have hg1 := classifyReference_grows hstep
      have hg2 := classify_grows hclass
      obtain ⟨si1, hsi1, gi⟩ := forall₂_getElem? hg1 hsi
      obtain ⟨sj1, hsj1, gj⟩ := forall₂_getElem? hg1 hsj
      by_cases hr : ref = r
      · subst hr
        rw [classifyReference_cross hres hdef hi hj hij hsi hsj hserver hclient] at hstep
        cases hstep
        have hilt : i < ns.length := (List.getElem?_eq_some_iff.mp hsi).1
        have hjlt : j < ns.length := (List.getElem?_eq_some_iff.mp hsj).1
        rw [getElem?_set_set_cases _ _ _ _ _ hij] at hsi1 hsj1
        simp only [hij, if_false, hilt, if_true, Option.some.injEq, hjlt] at hsi1 hsj1
        obtain ⟨ti, hti, gti⟩ := forall₂_getElem? hg2
          (show _[i]? = some si1 by
            rw [getElem?_set_set_cases _ _ _ _ _ hij]; simp [hij, hilt, hsi1])
        obtain ⟨tj, htj, gtj⟩ := forall₂_getElem? hg2
          (show _[j]? = some sj1 by
            rw [getElem?_set_set_cases _ _ _ _ _ hij]; simp [hjlt, hsj1])
        refine ⟨ti, tj, hti, htj, gti.2.2.2.2.1 ?_, gtj.2.2.2.2.2.1 ?_⟩
        · rw [← hsi1]; exact NameSet.mem_add _ _
        · rw [← hsj1]; exact NameSet.mem_add _ _
      · have hrest : ref ∈ rest := by
          rcases List.mem_cons.mp hmem with h | h
          · exact absurd h hr
          · exact h
        exact ih hrest ns1 ns2 si1 sj1 hsi1 hsj1
          (by rw [gi.2.2.1, gj.2.2.1]; exact hserver)
          (by rw [gi.2.2.1, gj.2.2.1]; exact hclient) hclass

/-- C7, as amended: on a resolved reference whose using block `i` and declaring
block `j` differ and are neither both server-tagged nor both client-tagged, one
turn of the loop adds the reference's name to the input set of block `i` and to
the output set of block `j`, and changes no other set and no flag; and when the
loop is over the name is in the input set of block `i` and in the output set of
block `j`. -/
theorem cross_tier_reference (blocks : List Block) (ref : Reference) (resolved : Variable)
    (def0 : Definition) (i j : Nat)
    (hres : ref.resolved = some resolved) (hdef : resolved.defs.head? = some def0)
    (hi : blockFromNode blocks ref.identifier = some i)
    (hj : blockFromNode blocks def0.name = some j) (hij : i ≠ j)
    (ns : List NodeState) (si sj : NodeState) (hsi : ns[i]? = some si) (hsj : ns[j]? = some sj)
    (hserver : ¬ (server ∈ si.sides ∧ server ∈ sj.sides))
    (hclient : ¬ (client ∈ si.sides ∧ client ∈ sj.sides)) :
    (∃ ns1, classifyReference blocks ns ref = .ok ns1 ∧
      ∀ k s, ns[k]? = some s → ∃ s1, ns1[k]? = some s1 ∧
        s1.sessionRequired = s.sessionRequired ∧ s1.sides = s.sides ∧
        (∀ n, n ∈ s1.inNames ↔ n ∈ s.inNames ∨ (k = i ∧ n = ref.identifier.name)) ∧
        (∀ n, n ∈ s1.outNames ↔ n ∈ s.outNames ∨ (k = j ∧ n = ref.identifier.name))) ∧
    (∀ refs ns2, ref ∈ refs → classify blocks refs ns = .ok ns2 →
      ∃ ti tj, ns2[i]? = some ti ∧ ns2[j]? = some tj ∧
        ref.identifier.name ∈ ti.inNames ∧ ref.identifier.name ∈ tj.outNames) := by
  constructor
  · refine ⟨_, classifyReference_cross hres hdef hi hj hij hsi hsj hserver hclient, ?_⟩
    intro k s hs
    have hilt : i < ns.length := (List.getElem?_eq_some_iff.mp hsi).1
    have hjlt : j < ns.length := (List.getElem?_eq_some_iff.mp hsj).1
    rw [getElem?_set_set_cases _ _ _ _ _ hij]
    by_cases hkj : k = j
    · subst hkj
      rw [hsj] at hs
      cases hs
      have hki : ¬ k = i := fun h => hij h.symm
      refine ⟨{ sj with outNames := sj.outNames.add ref.identifier.name },
        by simp only [if_true, hjlt], rfl, rfl, ?_, ?_⟩
      · intro n; simp [hki]
      · intro n; simp [NameSet.mem_add_iff]
    · by_cases hki : k = i
      · subst hki
        rw [hsi] at hs
        cases hs
        refine ⟨{ si with inNames := si.inNames.add ref.identifier.name },
          by simp only [hkj, if_false, if_true, hilt], rfl, rfl, ?_, ?_⟩
        · intro n; simp [NameSet.mem_add_iff]
        · intro n; simp [hkj]
      · refine ⟨s, by simp only [hkj, hki, if_false, hs], rfl, rfl, ?_, ?_⟩
        · intro n; simp [hki]
        · intro n; simp [hkj]
  · intro refs ns2 hmem hclass
    exact classify_cross_mem hres hdef hi hj hij refs hmem ns ns2 si sj hsi hsj hserver hclient
      hclass


theorem cross_tier_reference_witness :
    (∃ ns1, classifyReference example1Blocks example1States (resolvedRef 44 "x" 15) = .ok ns1 ∧
      ∀ k s, example1States[k]? = some s → ∃ s1, ns1[k]? = some s1 ∧
        s1.sessionRequired = s.sessionRequired ∧ s1.sides = s.sides ∧
        (∀ n, n ∈ s1.inNames ↔ n ∈ s.inNames ∨ (k = 1 ∧ n = "x")) ∧
        (∀ n, n ∈ s1.outNames ↔ n ∈ s.outNames ∨ (k = 0 ∧ n = "x"))) ∧
    (∀ refs ns2, resolvedRef 44 "x" 15 ∈ refs →
      classify example1Blocks refs example1States = .ok ns2 →
      ∃ ti tj, ns2[1]? = some ti ∧ ns2[0]? = some tj ∧ "x" ∈ ti.inNames ∧ "x" ∈ tj.outNames) :=
  cross_tier_reference example1Blocks (resolvedRef 44 "x" 15) _ _ 1 0 rfl rfl rfl rfl
    (by decide) example1States _ _ rfl rfl (by decide) (by decide)

/-- C7, as stated, fails on Example 1 followed by a second server block that
reads `x`: the reference at 44 has the using block 1 and the declaring block 0,
a client block, and when the loop is over `x` is in the input sets of the two
blocks 1 and 2. -/
theorem cross_tier_name_in_two_input_sets :
    ∃ blocks states,
      parseBlocks uuid0 twoReadersSource twoReadersAst twoReadersScopes = .ok (blocks, states) ∧
      resolvedRef 44 "x" 15 ∈ references (blocks.map fun b => b.label) twoReadersScopes ∧
      blockFromNode blocks ⟨44, 45, "x"⟩ = some 1 ∧ blockFromNode blocks ⟨15, 16, "x"⟩ = some 0 ∧
      states.map (fun s => (s.sides, s.inNames, s.outNames)) =
        [(["client"], [], ["x"]), (["server"], ["x"], []), (["server"], ["x"], [])] :=
  ⟨_, _, rfl, by decide, rfl, rfl, rfl⟩

/-- C8: on a resolved reference whose using block `i` and declaring block `j`
differ and both include `server`, one turn of the loop sets `sessionRequired` on
the state of block `i` and changes nothing else: the name sets of block `i` and
the states of all other blocks are as before. -/
theorem server_reference (blocks : List Block) (ref : Reference) (resolved : Variable)
    (def0 : Definition) (i j : Nat)
    (hres : ref.resolved = some resolved) (hdef : resolved.defs.head? = some def0)
    (hi : blockFromNode blocks ref.identifier = some i)
    (hj : blockFromNode blocks def0.name = some j) (hij : i ≠ j)
    (ns : List NodeState) (si sj : NodeState) (hsi : ns[i]? = some si) (hsj : ns[j]? = some sj)
    (h1 : server ∈ si.sides) (h2 : server ∈ sj.sides) :
    ∃ ns1 s1, classifyReference blocks ns ref = .ok ns1 ∧ ns1[i]? = some s1 ∧
      s1 = { si with sessionRequired := true } ∧
      s1.inNames = si.inNames ∧ s1.outNames = si.outNames ∧
      ∀ k, k ≠ i → ns1[k]? = ns[k]? := by
  have hilt : i < ns.length := (List.getElem?_eq_some_iff.mp hsi).1
  refine ⟨ns.set i { si with sessionRequired := true }, { si with sessionRequired := true },
    ?_, ?_, rfl, rfl, rfl, ?_⟩
  · rw [classifyReference_of_blocks hres hdef hi hj hij hsi hsj]
    simp [h1, h2]
  · simp [List.getElem?_set, hilt]
  · intro k hk
    rw [List.getElem?_set]
    have hne : ¬ i = k := fun h => hk h.symm
    simp only [hne, if_false]

theorem server_reference_witness :
    ∃ ns1 s1, classifyReference example2Blocks example2States (resolvedRef 44 "y" 15) = .ok ns1 ∧
      ns1[1]? = some s1 ∧
      s1 = { freshState 21 "server" "id1" with sessionRequired := true } ∧
      s1.inNames = [] ∧ s1.outNames = [] ∧
      ∀ k, k ≠ 1 → ns1[k]? = example2States[k]? :=
  server_reference example2Blocks (resolvedRef 44 "y" 15) _ _ 1 0 rfl rfl rfl rfl
    (by decide) example2States _ _ rfl rfl (by decide) (by decide)

/-- The filter of line 91 removes no reference: `onIdentifiers` holds
`undefined` only. -/
theorem references_eq (onLabels : List Node) (scopes : List (List Reference)) :
    references onLabels scopes = scopes.flatMap fun scope => scope := by
  have hnone : ∀ x ∈ onIdentifiers onLabels, x = none := by
    intro x hx
    simp only [onIdentifiers, Node.sideIdentifiers, List.mem_flatMap, List.mem_singleton] at hx
    obtain ⟨_, _, rfl⟩ := hx
    rfl
  unfold references
  rw [List.filter_eq_self]
  intro ref _
  simp only [Bool.not_eq_true', List.contains_eq_any_beq, List.any_eq_false, beq_iff_eq]
  intro x hx h
  rw [hnone x hx] at h
  cases h

/-- C9, a module that declares `server`: the token of the marker `on: server`
is classified like any reference, it puts the name `server` in the input set of
the marker's own block and in the output set of the block that declares it, and
the fragment destructures `server` from `__veqIn`. -/
theorem marker_token_classified :
    (parseBlocks uuid0 serverBindingSource serverBindingAst serverBindingScopes).map
        (fun r => r.2.map fun s => (s.sides, s.inNames, s.outNames)) =
      .ok [(["client"], [], ["server"]), (["server"], ["server"], [])] ∧
    parse uuid0 serverBindingSource serverBindingAst serverBindingScopes =
      .ok { server := [{ id := "id1", sessionRequired := false,
                         code := utf16 "\n; const \x7b server \x7d = __veqIn\n; \nf()\n; __veqOut = \x7b  \x7d\n;" }] } := by
  constructor <;> rfl

/-! ## The spans of the blocks: claim C10 -/

/-- C10, as amended: in a successful run there is one block for each marker of
the module, the blocks are in ascending order of the start offsets of their
markers, every block starts where its own marker ends (the first block at the
end of the first marker), every block but the last ends where the marker of the
next block starts, so that between two consecutive blocks lies the text of that
marker and nothing else, the last block ends at the length of the source, and,
when no marker ends before it starts, no two blocks overlap: a block ends
before every later block starts. -/
theorem block_spans (source : JsString) (ast : Program) (scopes : List (List Reference))
    (out : Output) (h : parse uuid source ast scopes = .ok out) :
    ∃ blocks states, parseBlocks uuid source ast scopes = .ok (blocks, states) ∧
      blocks ≠ [] ∧
      (blocks.map fun b => b.label).Perm (markersOf ast.toNode) ∧
      (blocks.map fun b => b.label).Sorted (fun a b => a.start ≤ b.start) ∧
      (∀ b ∈ blocks, b.start = b.label.end_) ∧
      (∀ i b c, blocks[i]? = some b → blocks[i + 1]? = some c →
        b.end_ = c.label.start ∧ c.start = c.label.end_) ∧
      (∀ b, blocks.getLast? = some b → b.end_ = source.length) ∧
      ((∀ m ∈ markersOf ast.toNode, m.start ≤ m.end_) →
        blocks.Pairwise fun b c => b.end_ ≤ c.start) := by
  obtain ⟨blocks, states, hb, -⟩ := parse_ok uuid h
  obtain ⟨hne, hstart, hnext, hlast, hpair⟩ := parseBlocks_spans uuid hb
  obtain ⟨hperm, hsorted, -⟩ := parseBlocks_labels uuid hb
  refine ⟨blocks, states, hb, hne, hperm, hsorted, hstart, ?_, hlast, hpair⟩
  intro i b c hbi hci
  exact ⟨hnext i b c hbi hci, hstart c (List.getElem?_mem hci)⟩

theorem block_spans_witness :
    ∃ blocks states,
      parseBlocks uuid0 example2Source example2Ast example2Scopes = .ok (blocks, states) ∧
      blocks ≠ [] ∧
      (blocks.map fun b => b.label).Perm (markersOf example2Ast.toNode) ∧
      (blocks.map fun b => b.label).Sorted (fun a b => a.start ≤ b.start) ∧
      (∀ b ∈ blocks, b.start = b.label.end_) ∧
      (∀ i b c, blocks[i]? = some b → blocks[i + 1]? = some c →
        b.end_ = c.label.start ∧ c.start = c.label.end_) ∧
      (∀ b, blocks.getLast? = some b → b.end_ = example2Source.length) ∧
      ((∀ m ∈ markersOf example2Ast.toNode, m.start ≤ m.end_) →
        blocks.Pairwise fun b c => b.end_ ≤ c.start) :=
  block_spans uuid0 example2Source example2Ast example2Scopes _ rfl

/-- C10, as stated, fails on Example 1: the first block ends at 21, where the
second marker starts, and the second block starts at 31, where that marker
ends. -/
theorem block_end_not_next_start :
    ∃ blocks states b c,
      parseBlocks uuid0 example1Source example1Ast example1Scopes = .ok (blocks, states) ∧
      blocks[0]? = some b ∧ blocks[1]? = some c ∧ b.end_ = 21 ∧ c.start = 31 ∧
      b.end_ ≠ c.start :=
  ⟨_, _, _, _, rfl, rfl, rfl, rfl, rfl, by decide⟩

/-! ## The loader: claim C13 -/

/-- C13: for a resource path that does not match both `/vue/` and `/veq=true/`
the loader calls the callback once, with `null`, the source and the map it
received. -/
theorem loader_passthrough {μ : Type} (resourcePath source : String) (map : μ)
    (h : ¬ (regexTest "vue" resourcePath = true ∧ regexTest "veq=true" resourcePath = true)) :
    loader resourcePath source map = [{ err := none, source := source, map := map }] := by
  unfold loader
  rw [if_pos]
  simp only [Bool.or_eq_true, Bool.not_eq_true']
  by_cases h1 : regexTest "vue" resourcePath = true
  · right
    by_cases h2 : regexTest "veq=true" resourcePath = true
    · exact absurd ⟨h1, h2⟩ h
    · simpa using h2
  · left; simpa using h1

theorem loader_passthrough_witness :
    loader "src/App.vue" "<script>on: server</script>" (7 : Nat) =
      [{ err := none, source := "<script>on: server</script>", map := 7 }] :=
  loader_passthrough "src/App.vue" "<script>on: server</script>" 7 (by decide)

/-! ## The segmenter and the resolver: claims C14, C15 and C20 -/

/-- The state a successful walk of the module ends in. -/
theorem traverseProgram_ok {ast : Program} {st : TraverseState}
    (h : traverseProgram uuid ast = .ok st) :
    st.functionStack = [] ∧ labelStates uuid 0 (markersOf ast.toNode) = .ok st.onLabels := by
  have hspec := traverse_spec uuid ast.toNode { functionStack := [], onLabels := [] } (by simp)
  simp only [traverseProgram] at h
  simp only [Program.toNode] at hspec ⊢
  rw [h] at hspec
  obtain ⟨hstack, ⟨new, hnew, hlabels⟩, -⟩ := hspec
  simp only [List.nil_append, List.length_nil] at hlabels hnew
  subst hlabels
  exact ⟨hstack, hnew⟩

/-- C14: after a successful scan the segmenter makes one block for each marker
of the module, in ascending order of the markers' start offsets; block `i` has
the `i`-th marker as its label, starts at that marker's end and ends at the
start of marker `i + 1`, the last block at the length of the source; and every
state begins with `sessionRequired = false` and empty name sets. -/
theorem segmenter_blocks (source : JsString) (ast : Program) (st : TraverseState)
    (h : traverseProgram uuid ast = .ok st) :
    ∃ m : List Node, m = (sortLabels st.onLabels).map Prod.fst ∧
      m.Perm (markersOf ast.toNode) ∧ m.Sorted (fun a b => a.start ≤ b.start) ∧
      (onBlocks source.length m).length = m.length ∧
      (∀ i b, (onBlocks source.length m)[i]? = some b →
        m[i]? = some b.label ∧ b.start = b.label.end_ ∧
        (∀ c, m[i + 1]? = some c → b.end_ = c.start) ∧
        (m[i + 1]? = none → b.end_ = source.length)) ∧
      ∀ p ∈ sortLabels st.onLabels,
        p.2.sessionRequired = false ∧ p.2.inNames = [] ∧ p.2.outNames = [] := by
  obtain ⟨-, hlabels⟩ := traverseProgram_ok uuid h
  refine ⟨_, rfl, ?_, ?_, onBlocks_length _ _, ?_, ?_⟩
  · rw [← labelStates_fst uuid hlabels]
    exact (sortLabels_perm st.onLabels).map _
  · exact List.pairwise_map.mpr (sortLabels_sorted st.onLabels)
  · intro i b hb
    generalize (sortLabels st.onLabels).map Prod.fst = m at hb ⊢
    have hi : i < m.length := by
      rw [← onBlocks_length source.length m]
      exact (List.getElem?_eq_some_iff.mp hb).1
    rw [onBlocks_getElem _ _ _ hi, Option.some.injEq] at hb
    subst hb
    refine ⟨List.getElem?_eq_getElem hi, rfl, ?_, ?_⟩
    · intro c hc
      have hi1 : i + 1 < m.length := (List.getElem?_eq_some_iff.mp hc).1
      have : i ≠ m.length - 1 := by omega
      simp only [this, if_false, nextStart, hc]
    · intro hnone
      have : m.length ≤ i + 1 := List.getElem?_eq_none_iff.mp hnone
      have : i = m.length - 1 := by omega
      simp only [this, if_true]
  · intro p hp
    obtain ⟨id, hid⟩ := labelStates_mem uuid hlabels ((sortLabels_perm st.onLabels).mem_iff.mp hp)
    obtain ⟨ids, -, hs⟩ := NodeState.new_ok hid
    rw [hs]
    exact ⟨rfl, rfl, rfl⟩

theorem segmenter_blocks_witness :
    ∃ m : List Node, m = [marker 0 "client", marker 21 "server"] ∧
      m.Perm (markersOf example1Ast.toNode) ∧ m.Sorted (fun a b => a.start ≤ b.start) ∧
      (onBlocks example1Source.length m).length = m.length ∧
      (∀ i b, (onBlocks example1Source.length m)[i]? = some b →
        m[i]? = some b.label ∧ b.start = b.label.end_ ∧
        (∀ c, m[i + 1]? = some c → b.end_ = c.start) ∧
        (m[i + 1]? = none → b.end_ = example1Source.length)) ∧
      ∀ p ∈ [(marker 0 "client", freshState 0 "client" "id0"),
             (marker 21 "server", freshState 21 "server" "id1")],
        p.2.sessionRequired = false ∧ p.2.inNames = [] ∧ p.2.outNames = [] :=
  segmenter_blocks uuid0 example1Source example1Ast _ rfl


theorem findIndex_eq_none {α : Type} (p : α → Bool) (l : List α) :
    findIndex p l = none ↔ ∀ x ∈ l, p x = false := by
  induction l with
  | nil => simp [findIndex]
  | cons a l ih =>
    simp only [findIndex, List.mem_cons, forall_eq_or_imp]
    cases hp : p a with
    | true => simp
    | false => simp [ih]

theorem findIndex_eq_some {α : Type} (p : α → Bool) (l : List α) (i : Nat) :
    findIndex p l = some i ↔
      ∃ x, l[i]? = some x ∧ p x = true ∧ ∀ k y, k < i → l[k]? = some y → p y = false := by
  induction l generalizing i with
  | nil => simp [findIndex]
  | cons a l ih =>
    simp only [findIndex]
    cases hp : p a with
    | true =>
      simp only [if_true, Option.some.injEq]
      constructor
      · intro h
        subst h
        exact ⟨a, by simp, hp, fun k y hk => absurd hk (Nat.not_lt_zero k)⟩
      · rintro ⟨x, hx, hpx, hbefore⟩
        cases i with
        | zero => rfl
        | succ i =>
          have := hbefore 0 a (Nat.succ_pos i) (by simp)
          rw [hp] at this
          cases this
    | false =>
      simp only [Bool.false_eq_true, if_false, Option.map_eq_some']
      constructor
      · rintro ⟨j, hj, rfl⟩
        obtain ⟨x, hx, hpx, hbefore⟩ := (ih j).mp hj
        refine ⟨x, by simpa using hx, hpx, ?_⟩
        intro k y hk hy
        cases k with
        | zero =>
          simp only [List.getElem?_cons_zero, Option.some.injEq] at hy
          subst hy
          exact hp
        | succ k =>
          simp only [List.getElem?_cons_succ] at hy
          exact hbefore k y (by omega) hy
      · rintro ⟨x, hx, hpx, hbefore⟩
        cases i with
        | zero =>
          simp only [List.getElem?_cons_zero, Option.some.injEq] at hx
          subst hx
          rw [hp] at hpx
          cases hpx
        | succ i =>
          simp only [List.getElem?_cons_succ] at hx
          refine ⟨i, (ih i).mpr ⟨x, hx, hpx, ?_⟩, rfl⟩
          intro k y hk hy
          exact hbefore (k + 1) y (by omega) (by simpa using hy)

theorem blockFromNode_eq_some (blocks : List Block) (node : Identifier) (i : Nat) :
    blockFromNode blocks node = some i ↔
      ∃ b, blocks[i]? = some b ∧ node.end_ ≤ b.end_ ∧
        ∀ k c, k < i → blocks[k]? = some c → c.end_ < node.end_ := by
  unfold blockFromNode
  rw [findIndex_eq_some]
  simp only [ge_iff_le, decide_eq_true_eq, decide_eq_false_iff_not, Nat.not_le]

theorem blockFromNode_eq_none (blocks : List Block) (node : Identifier) :
    blockFromNode blocks node = none ↔ ∀ b ∈ blocks, b.end_ < node.end_ := by
  unfold blockFromNode
  rw [findIndex_eq_none]
  simp only [ge_iff_le, decide_eq_false_iff_not, Nat.not_le]

/-- C15: `blockFromNode` answers the first block of `onBlocks`, which is in
ascending order, whose end offset is at least the node's end offset: no earlier
block has such an end, and there is no answer only when every block ends before
the node does; in particular a node that ends where block `i` ends, all earlier
blocks ending before, is resolved to block `i`, not to block `i + 1`. -/
theorem blockFromNode_first (blocks : List Block) (node : Identifier) :
    (∀ i, blockFromNode blocks node = some i ↔
      ∃ b, blocks[i]? = some b ∧ node.end_ ≤ b.end_ ∧
        ∀ k c, k < i → blocks[k]? = some c → c.end_ < node.end_) ∧
    (blockFromNode blocks node = none ↔ ∀ b ∈ blocks, b.end_ < node.end_) ∧
    (∀ i b, blocks[i]? = some b → node.end_ = b.end_ →
      (∀ k c, k < i → blocks[k]? = some c → c.end_ < b.end_) →
      blockFromNode blocks node = some i ∧ blockFromNode blocks node ≠ some (i + 1)) := by
  have hsome := blockFromNode_eq_some blocks node
  refine ⟨hsome, blockFromNode_eq_none blocks node, ?_⟩
  · intro i b hb hend hbefore
    have h1 : blockFromNode blocks node = some i :=
      (hsome i).mpr ⟨b, hb, Nat.le_of_eq hend, fun k c hk hc => hend ▸ hbefore k c hk hc⟩
    refine ⟨h1, ?_⟩
    rw [h1]
    simp

theorem blockFromNode_first_witness :
    blockFromNode example1Blocks ⟨20, 21, "z"⟩ = some 0 ∧
      blockFromNode example1Blocks ⟨20, 21, "z"⟩ ≠ some (0 + 1) :=
  (blockFromNode_first example1Blocks ⟨20, 21, "z"⟩).2.2 0 ⟨marker 0 "client", 10, 21⟩ rfl rfl
    (fun k _ hk => absurd hk (Nat.not_lt_zero k))


theorem classifyReference_length {blocks : List Block} {ns ns1 : List NodeState}
    {ref : Reference} (h : classifyReference blocks ns ref = .ok ns1) : ns1.length = ns.length :=
  (classifyReference_grows h).length_eq.symm

/-- The resolver finds a block for every node that ends inside the source. -/
theorem blockFromNode_onBlocks (n : Nat) (ms : List Node) (hne : ms ≠ []) (node : Identifier)
    (h : node.end_ ≤ n) : ∃ i, blockFromNode (onBlocks n ms) node = some i ∧ i < ms.length := by
  cases hb : blockFromNode (onBlocks n ms) node with
  | none =>
    exfalso
    have hall := (blockFromNode_eq_none (onBlocks n ms) node).mp hb
    have hpos : 0 < ms.length := List.length_pos.mpr hne
    have hlast := onBlocks_getElem n ms (ms.length - 1) (by omega)
    have := hall _ (List.getElem?_mem hlast)
    simp only [if_true] at this
    omega
  | some i =>
    refine ⟨i, rfl, ?_⟩
    obtain ⟨b, hbi, -⟩ := (blockFromNode_eq_some (onBlocks n ms) node i).mp hb
    rw [← onBlocks_length n ms]
    exact (List.getElem?_eq_some_iff.mp hbi).1

/-- One turn of the loop raises nothing when the blocks of the reference are
found and the variable has a definition. -/
theorem classifyReference_total (n : Nat) (ms : List Node) (hne : ms ≠ [])
    (ns : List NodeState) (hlen : ns.length = ms.length) (ref : Reference)
    (hid : ref.identifier.end_ ≤ n)
    (hdef : ∀ v, ref.resolved = some v → ∃ d, v.defs.head? = some d ∧ d.name.end_ ≤ n) :
    ∃ ns1, classifyReference (onBlocks n ms) ns ref = .ok ns1 := by
  cases hres : ref.resolved with
  | none => exact ⟨ns, by simp [classifyReference, hres]⟩
  | some v =>
    obtain ⟨d, hd, hdn⟩ := hdef v hres
    obtain ⟨i, hi, hilt⟩ := blockFromNode_onBlocks n ms hne ref.identifier hid
    obtain ⟨j, hj, hjlt⟩ := blockFromNode_onBlocks n ms hne d.name hdn
    by_cases hij : i = j
    · subst hij
      exact ⟨ns, by simp [classifyReference, hres, hd, hi, hj]⟩
    · have hsi : ns[i]? = some ns[i] := List.getElem?_eq_getElem (by omega)
      have hsj : ns[j]? = some ns[j] := List.getElem?_eq_getElem (by omega)
      rw [classifyReference_of_blocks hres hd hi hj hij hsi hsj]
      split
      · exact ⟨_, rfl⟩
      · split
        · exact ⟨_, rfl⟩
        · exact ⟨_, rfl⟩

/-- C20: with at least one marker, `blockFromNode` finds a block for every node
whose end offset is at most the length of the source, and the loop of lines
92-107 raises nothing on references whose identifier and first definition end
inside the source: the states of the using and of the declaring block are
there. -/
theorem blockFromNode_total (n : Nat) (ms : List Node) (hne : ms ≠ []) :
    (∀ node : Identifier, node.end_ ≤ n →
      ∃ i b, blockFromNode (onBlocks n ms) node = some i ∧ (onBlocks n ms)[i]? = some b) ∧
    (∀ (refs : List Reference) (ns : List NodeState), ns.length = ms.length →
      (∀ ref ∈ refs, ref.identifier.end_ ≤ n ∧
        ∀ v, ref.resolved = some v → ∃ d, v.defs.head? = some d ∧ d.name.end_ ≤ n) →
      ∃ ns1, classify (onBlocks n ms) refs ns = .ok ns1) := by
  constructor
  · intro node h
    obtain ⟨i, hi, hilt⟩ := blockFromNode_onBlocks n ms hne node h
    exact ⟨i, _, hi, onBlocks_getElem n ms i hilt⟩
  · intro refs
    induction refs with
    | nil => intro ns _ _; exact ⟨ns, rfl⟩
    | cons ref rest ih =>
      intro ns hlen hall
      obtain ⟨hid, hdef⟩ := hall ref (by simp)
      obtain ⟨ns1, h1⟩ := classifyReference_total n ms hne ns hlen ref hid hdef
      obtain ⟨ns2, h2⟩ := ih ns1 ((classifyReference_length h1).trans hlen)
        (fun r hr => hall r (by simp [hr]))
      exact ⟨ns2, by simp only [classify, h1, h2]⟩

theorem blockFromNode_total_witness :
    (∀ node : Identifier, node.end_ ≤ 46 →
      ∃ i b, blockFromNode (onBlocks 46 [marker 0 "client", marker 21 "server"]) node = some i ∧
        (onBlocks 46 [marker 0 "client", marker 21 "server"])[i]? = some b) ∧
    (∀ (refs : List Reference) (ns : List NodeState), ns.length = 2 →
      (∀ ref ∈ refs, ref.identifier.end_ ≤ 46 ∧
        ∀ v, ref.resolved = some v → ∃ d, v.defs.head? = some d ∧ d.name.end_ ≤ 46) →
      ∃ ns1, classify (onBlocks 46 [marker 0 "client", marker 21 "server"]) refs ns = .ok ns1) :=
  blockFromNode_total 46 [marker 0 "client", marker 21 "server"] (by simp)

/-! ## References that record nothing, and the errors of the loop: claims C11, C18 and C19 -/

/-- An unresolved reference changes nothing. -/
theorem classifyReference_unresolved (blocks : List Block) (ns : List NodeState)
    (ref : Reference) (h : ref.resolved = none) : classifyReference blocks ns ref = .ok ns := by
  simp [classifyReference, h]

/-- A resolved variable without a definition stops the loop with a
`TypeError`. -/
theorem classifyReference_no_definition (blocks : List Block) (ns : List NodeState)
    (ref : Reference) (v : Variable) (h : ref.resolved = some v) (hdefs : v.defs = []) :
    classifyReference blocks ns ref = .error .TypeError := by
  simp [classifyReference, h, hdefs]

/-- C11, a module whose function reads `arguments`: the scanner accepts the
module, the reference is resolved to a variable without definitions, and
reading `resolved.defs[0].name` on line 96 raises a `TypeError`. -/
theorem classifier_raises_on_arguments :
    (∃ st, traverseProgram uuid0 argumentsAst = .ok st) ∧
      parse uuid0 argumentsSource argumentsAst argumentsScopes = .error .TypeError :=
  ⟨⟨_, rfl⟩, rfl⟩

/-- Line 97: the turn is over when the two blocks are the same. -/
theorem classifyReference_same_block {blocks : List Block} {ns : List NodeState}
    {ref : Reference} {resolved : Variable} {def0 : Definition}
    (hres : ref.resolved = some resolved) (hdef : resolved.defs.head? = some def0)
    (hsame : blockFromNode blocks ref.identifier = blockFromNode blocks def0.name) :
    classifyReference blocks ns ref = .ok ns := by
  simp [classifyReference, hres, hdef, hsame]

/-- C18: a resolved reference whose use site and declaration site are resolved
to the same block leaves the states of all blocks as they are: their input
sets, output sets and `sessionRequired` flags, whatever their tier lists. -/
theorem same_block_reference (blocks : List Block) (ns : List NodeState) (ref : Reference)
    (resolved : Variable) (def0 : Definition)
    (hres : ref.resolved = some resolved) (hdef : resolved.defs.head? = some def0)
    (hsame : blockFromNode blocks ref.identifier = blockFromNode blocks def0.name) :
    classifyReference blocks ns ref = .ok ns :=
  classifyReference_same_block hres hdef hsame

theorem same_block_reference_witness :
    classifyReference example1Blocks example1States (resolvedRef 15 "x" 15) = .ok example1States :=
  same_block_reference example1Blocks example1States (resolvedRef 15 "x" 15) _ _ rfl rfl rfl

/-- C19: a resolved reference whose using block `i` and declaring block `j`
differ, both include `client` and do not both include `server` leaves the
states of all blocks as they are. -/
theorem client_reference (blocks : List Block) (ref : Reference) (resolved : Variable)
    (def0 : Definition) (i j : Nat)
    (hres : ref.resolved = some resolved) (hdef : resolved.defs.head? = some def0)
    (hi : blockFromNode blocks ref.identifier = some i)
    (hj : blockFromNode blocks def0.name = some j) (hij : i ≠ j)
    (ns : List NodeState) (si sj : NodeState) (hsi : ns[i]? = some si) (hsj : ns[j]? = some sj)
    (h1 : client ∈ si.sides) (h2 : client ∈ sj.sides)
    (hserver : ¬ (server ∈ si.sides ∧ server ∈ sj.sides)) :
    classifyReference blocks ns ref = .ok ns := by
  rw [classifyReference_of_blocks hres hdef hi hj hij hsi hsj]
  simp [h1, h2, hserver]

theorem client_reference_witness :
    classifyReference clientBlocks clientStates (resolvedRef 44 "x" 15) = .ok clientStates :=
  client_reference clientBlocks (resolvedRef 44 "x" 15) _ _ 1 0 rfl rfl rfl rfl (by decide)
    clientStates _ _ rfl rfl (by decide) (by decide) (by decide)

/-! ## The loop as a list of actions: claims C16 and C17 -/

theorem Action.map_stateAt_of {a : Action} {k : Nat} (h : ∀ s, a.stateAt k s = s)
    (o : Option NodeState) : o.map (a.stateAt k) = o := by
  cases o with
  | none => rfl
  | some s => simp [h s]

theorem Action.stateAt_skip (k : Nat) (s : NodeState) : Action.skip.stateAt k s = s := rfl

/-- One turn of the loop is the action of the reference, applied to every
state. -/
theorem classifyReference_action (blocks : List Block) (ns : List NodeState) (ref : Reference) :
    StepSpec blocks ns ref (classifyReference blocks ns ref) := by
  have hskip : ∀ k, ns[k]? = (ns[k]?).map (Action.skip.stateAt k) := fun k =>
    (Action.map_stateAt_of (Action.stateAt_skip k) _).symm
  cases hres : ref.resolved with
  | none =>
    rw [classifyReference_unresolved blocks ns ref hres]
    exact ⟨.skip, by simp [actionOf, hres], hskip⟩
  | some resolved =>
    cases hdef : resolved.defs.head? with
    | none =>
      have h1 : classifyReference blocks ns ref = .error .TypeError := by
        simp [classifyReference, hres, hdef]
      rw [h1]
      exact ⟨rfl, by simp [actionOf, hres, hdef]⟩
    | some def0 =>
      by_cases hsame : blockFromNode blocks ref.identifier = blockFromNode blocks def0.name
      · rw [classifyReference_same_block hres hdef hsame]
        exact ⟨.skip, by simp [actionOf, hres, hdef, hsame], hskip⟩
      · have herr : ∀ (i j : Option Nat), blockFromNode blocks ref.identifier = i →
            blockFromNode blocks def0.name = j → (i = none ∨ j = none) →
            StepSpec blocks ns ref (classifyReference blocks ns ref) := by
          intro i j hi hj hnone
          have h1 : classifyReference blocks ns ref = .error .TypeError := by
            simp only [classifyReference, hres, hdef, hsame, if_false]
            rw [hi, hj]
            rcases hnone with rfl | rfl
            · rfl
            · cases i <;> rfl
          have h2 : actionOf blocks (ns.map fun s => s.sides) ref = .error .TypeError := by
            simp only [actionOf, hres, hdef, hsame, if_false]
            rw [hi, hj]
            rcases hnone with rfl | rfl
            · rfl
            · cases i <;> rfl
          rw [h1]
          exact ⟨rfl, h2⟩
        cases hi : blockFromNode blocks ref.identifier with
        | none => exact herr _ _ hi rfl (Or.inl rfl)
        | some i =>
          cases hj : blockFromNode blocks def0.name with
          | none => exact herr _ _ hi hj (Or.inr rfl)
          | some j =>
            have hij : i ≠ j := by
              rintro rfl
              exact hsame (hi.trans hj.symm)
            cases hsi : ns[i]? with
            | none =>
              have h1 : classifyReference blocks ns ref = .error .TypeError := by
                simp only [classifyReference, hres, hdef, hi, hj, Option.some.injEq, hij,
                  if_false, hsi]
              have h2 : actionOf blocks (ns.map fun s => s.sides) ref = .error .TypeError := by
                simp only [actionOf, hres, hdef, hi, hj, Option.some.injEq, hij, if_false,
                  List.getElem?_map, hsi, Option.map_none']
              rw [h1]
              exact ⟨rfl, h2⟩
            | some si =>
              cases hsj : ns[j]? with
              | none =>
                have h1 : classifyReference blocks ns ref = .error .TypeError := by
                  simp only [classifyReference, hres, hdef, hi, hj, Option.some.injEq, hij,
                    if_false, hsi, hsj]
                have h2 : actionOf blocks (ns.map fun s => s.sides) ref = .error .TypeError := by
                  simp only [actionOf, hres, hdef, hi, hj, Option.some.injEq, hij, if_false,
                    List.getElem?_map, hsi, hsj, Option.map_none', Option.map_some']
                rw [h1]
                exact ⟨rfl, h2⟩
              | some sj =>
                have hilt : i < ns.length := (List.getElem?_eq_some_iff.mp hsi).1
                have hjlt : j < ns.length := (List.getElem?_eq_some_iff.mp hsj).1
                rw [classifyReference_of_blocks hres hdef hi hj hij hsi hsj]
                have hact : actionOf blocks (ns.map fun s => s.sides) ref =
                    .ok (tierAction i j ref.identifier.name si.sides sj.sides) := by
                  simp only [actionOf, hres, hdef, hi, hj, Option.some.injEq, hij, if_false,
                    List.getElem?_map, hsi, hsj, Option.map_some']
                simp only [StepSpec, hact, tierAction]
                by_cases hs : (si.sides.contains server && sj.sides.contains server) = true
                · simp only [hs, if_true]
                  refine ⟨.session i, rfl, fun k => ?_⟩
                  rw [List.getElem?_set]
                  by_cases hk : i = k
                  · subst hk
                    simp [Action.stateAt, hilt, hsi]
                  · have hki : ¬ k = i := fun h => hk h.symm
                    simp only [hk, if_false]
                    exact (Action.map_stateAt_of (fun s => by simp [Action.stateAt, hki]) _).symm
                · simp only [hs, if_false]
                  by_cases hc : (si.sides.contains client && sj.sides.contains client) = true
                  · simp only [hc, if_true]
                    exact ⟨.skip, rfl, hskip⟩
                  · simp only [hc, if_false]
                    refine ⟨.cross i j ref.identifier.name, rfl, fun k => ?_⟩
                    rw [getElem?_set_set_cases _ _ _ _ _ hij]
                    by_cases hkj : k = j
                    · subst hkj
                      simp [Action.stateAt, hjlt, hsj]
                    · by_cases hki : k = i
                      · subst hki
                        simp [Action.stateAt, hkj, hilt, hsi]
                      · simp only [hkj, hki, if_false]
                        exact (Action.map_stateAt_of
                          (fun s => by simp [Action.stateAt, hkj, hki]) _).symm


theorem Grows.map_sides {a b : List NodeState} (h : List.Forall₂ Grows a b) :
    (b.map fun s => s.sides) = a.map fun s => s.sides := by
  induction h with
  | nil => rfl
  | cons hab _ ih => simp only [List.map_cons, ih, hab.2.2.1]

/-- The loop is the list of the actions of its references, applied in order to
every state. -/
theorem classify_actions (blocks : List Block) (refs : List Reference) :
    ∀ ns : List NodeState, LoopSpec blocks ns refs (classify blocks refs ns) := by
  induction refs with
  | nil =>
    intro ns
    exact ⟨[], .nil, fun k => by cases ns[k]? <;> rfl⟩
  | cons ref rest ih =>
    intro ns
    have hstep := classifyReference_action blocks ns ref
    simp only [classify]
    cases h1 : classifyReference blocks ns ref with
    | error e =>
      rw [h1] at hstep
      exact ⟨hstep.1, ref, by simp, hstep.2⟩
    | ok ns1 =>
      rw [h1] at hstep
      obtain ⟨a, ha, hk⟩ := hstep
      have hsides := Grows.map_sides (classifyReference_grows h1)
      have hrest := ih ns1
      simp only
      cases h2 : classify blocks rest ns1 with
      | error e =>
        rw [h2] at hrest
        obtain ⟨he, r, hr, hact⟩ := hrest
        rw [hsides] at hact
        exact ⟨he, r, by simp [hr], hact⟩
      | ok ns2 =>
        rw [h2] at hrest
        obtain ⟨acts, hacts, hk2⟩ := hrest
        rw [hsides] at hacts
        refine ⟨a :: acts, .cons ha hacts, fun k => ?_⟩
        rw [hk2 k, hk k]
        cases ns[k]? <;> rfl


theorem finalState_cons (a : Action) (acts : List Action) (k : Nat) (s : NodeState) :
    finalState (a :: acts) k s = finalState acts k (a.stateAt k s) := rfl

/-- The state of a block after the loop, from the set of the actions. -/
theorem finalState_spec (acts : List Action) (k : Nat) :
    ∀ s : NodeState,
      (finalState acts k s).sides = s.sides ∧
      ((finalState acts k s).sessionRequired = true ↔
        s.sessionRequired = true ∨ Action.session k ∈ acts) ∧
      (∀ n, n ∈ (finalState acts k s).inNames ↔
        n ∈ s.inNames ∨ ∃ j, j ≠ k ∧ Action.cross k j n ∈ acts) ∧
      (∀ n, n ∈ (finalState acts k s).outNames ↔
        n ∈ s.outNames ∨ ∃ i, Action.cross i k n ∈ acts) := by
  induction acts with
  | nil => intro s; simp [finalState]
  | cons a acts ih =>
    intro s
    rw [finalState_cons]
    cases a with
    | skip =>
      rw [Action.stateAt_skip]
      obtain ⟨h1, h2, h3, h4⟩ := ih s
      refine ⟨h1, ?_, ?_, ?_⟩
      · rw [h2]; simp
      · intro n; rw [h3]; simp
      · intro n; rw [h4]; simp
    | session i =>
      by_cases hk : k = i
      · subst hk
        have e : (Action.session k).stateAt k s = { s with sessionRequired := true } := by
          simp [Action.stateAt]
        rw [e]
        obtain ⟨h1, h2, h3, h4⟩ := ih { s with sessionRequired := true }
        refine ⟨h1, ?_, ?_, ?_⟩
        · rw [h2]; simp
        · intro n; rw [h3]; simp
        · intro n; rw [h4]; simp
      · have hik : ¬ i = k := fun h => hk h.symm
        have e : (Action.session i).stateAt k s = s := by simp [Action.stateAt, hk]
        rw [e]
        obtain ⟨h1, h2, h3, h4⟩ := ih s
        refine ⟨h1, ?_, ?_, ?_⟩
        · rw [h2]; simp [hk]
        · intro n; rw [h3]; simp
        · intro n; rw [h4]; simp
    | cross i j name =>
      by_cases hkj : k = j
      · subst hkj
        have e : (Action.cross i k name).stateAt k s =
            { s with outNames := s.outNames.add name } := by simp [Action.stateAt]
        rw [e]
        obtain ⟨h1, h2, h3, h4⟩ := ih { s with outNames := s.outNames.add name }
        refine ⟨h1, ?_, ?_, ?_⟩
        · rw [h2]; simp
        · intro n; rw [h3]
          constructor
          · rintro (h | ⟨j, hj, hm⟩)
            · exact Or.inl h
            · exact Or.inr ⟨j, hj, List.mem_cons_of_mem _ hm⟩
          · rintro (h | ⟨j, hj, hm⟩)
            · exact Or.inl h
            · rcases List.mem_cons.mp hm with heq | hm
              · cases heq; exact absurd rfl hj
              · exact Or.inr ⟨j, hj, hm⟩
        · intro n; rw [h4, NameSet.mem_add_iff]
          constructor
          · rintro ((h | rfl) | ⟨i2, hm⟩)
            · exact Or.inl h
            · exact Or.inr ⟨i, List.mem_cons_self _ _⟩
            · exact Or.inr ⟨i2, List.mem_cons_of_mem _ hm⟩
          · rintro (h | ⟨i2, hm⟩)
            · exact Or.inl (Or.inl h)
            · rcases List.mem_cons.mp hm with heq | hm
              · cases heq; exact Or.inl (Or.inr rfl)
              · exact Or.inr ⟨i2, hm⟩
      · by_cases hki : k = i
        · subst hki
          have e : (Action.cross k j name).stateAt k s =
              { s with inNames := s.inNames.add name } := by simp [Action.stateAt, hkj]
          rw [e]
          obtain ⟨h1, h2, h3, h4⟩ := ih { s with inNames := s.inNames.add name }
          refine ⟨h1, ?_, ?_, ?_⟩
          · rw [h2]; simp
          · intro n; rw [h3, NameSet.mem_add_iff]
            constructor
            · rintro ((h | rfl) | ⟨j2, hj, hm⟩)
              · exact Or.inl h
              · exact Or.inr ⟨j, fun h => hkj h.symm, List.mem_cons_self _ _⟩
              · exact Or.inr ⟨j2, hj, List.mem_cons_of_mem _ hm⟩
            · rintro (h | ⟨j2, hj, hm⟩)
              · exact Or.inl (Or.inl h)
              · rcases List.mem_cons.mp hm with heq | hm
                · cases heq; exact Or.inl (Or.inr rfl)
                · exact Or.inr ⟨j2, hj, hm⟩
          · intro n; rw [h4]
            constructor
            · rintro (h | ⟨i2, hm⟩)
              · exact Or.inl h
              · exact Or.inr ⟨i2, List.mem_cons_of_mem _ hm⟩
            · rintro (h | ⟨i2, hm⟩)
              · exact Or.inl h
              · rcases List.mem_cons.mp hm with heq | hm
                · cases heq; exact absurd rfl hkj
                · exact Or.inr ⟨i2, hm⟩
        · have e : (Action.cross i j name).stateAt k s = s := by
            simp [Action.stateAt, hkj, hki]
          rw [e]
          obtain ⟨h1, h2, h3, h4⟩ := ih s
          refine ⟨h1, ?_, ?_, ?_⟩
          · rw [h2]; simp
          · intro n; rw [h3]
            constructor
            · rintro (h | ⟨j2, hj, hm⟩)
              · exact Or.inl h
              · exact Or.inr ⟨j2, hj, List.mem_cons_of_mem _ hm⟩
            · rintro (h | ⟨j2, hj, hm⟩)
              · exact Or.inl h
              · rcases List.mem_cons.mp hm with heq | hm
                · cases heq; exact absurd rfl hki
                · exact Or.inr ⟨j2, hj, hm⟩
          · intro n; rw [h4]
            constructor
            · rintro (h | ⟨i2, hm⟩)
              · exact Or.inl h
              · exact Or.inr ⟨i2, List.mem_cons_of_mem _ hm⟩
            · rintro (h | ⟨i2, hm⟩)
              · exact Or.inl h
              · rcases List.mem_cons.mp hm with heq | hm
                · cases heq; exact absurd rfl hkj
                · exact Or.inr ⟨i2, hm⟩

theorem mem_actions_iff {blocks : List Block} {sides : List (List String)}
    {refs : List Reference} {acts : List Action}
    (h : List.Forall₂ (fun ref a => actionOf blocks sides ref = .ok a) refs acts) (a : Action) :
    a ∈ acts ↔ ∃ ref ∈ refs, actionOf blocks sides ref = .ok a := by
  induction h with
  | nil => simp
  | cons hra _ ih =>
    rename_i r b rs bs _
    simp only [List.mem_cons, ih, exists_eq_or_imp]
    constructor
    · rintro (rfl | h)
      · exact Or.inl hra
      · exact Or.inr h
    · rintro (h | h)
      · rw [hra] at h
        cases h
        exact Or.inl rfl
      · exact Or.inr h


theorem actionOf_cross {blocks : List Block} {sides : List (List String)} {ref : Reference}
    {i j : Nat} {n : String} (h : actionOf blocks sides ref = .ok (.cross i j n)) :
    ∃ v d, ref.resolved = some v ∧ v.defs.head? = some d ∧ ref.identifier.name = n ∧
      blockFromNode blocks ref.identifier = some i ∧ blockFromNode blocks d.name = some j ∧
      i ≠ j := by
  unfold actionOf at h
  split at h
  · cases h
  · rename_i v hv
    split at h
    · cases h
    · rename_i d hd
      split at h
      · cases h
      · rename_i hne
        split at h
        · rename_i i2 j2 hi hj
          split at h
          · rename_i a b _ _
            simp only [tierAction] at h
            split at h
            · cases h
            · split at h
              · cases h
              · cases h
                refine ⟨v, d, hv, hd, rfl, hi, hj, ?_⟩
                rintro rfl
                exact hne (hi.trans hj.symm)
          · cases h
        · cases h

theorem forall₂_getElem?_left {α β : Type} {R : α → β → Prop} {a : List α} {b : List β}
    (h : List.Forall₂ R a b) {x : α} (hx : x ∈ a) : ∃ y, R x y := by
  induction h with
  | nil => cases hx
  | cons hab _ ih =>
    rcases List.mem_cons.mp hx with rfl | hx
    · exact ⟨_, hab⟩
    · exact ih hx

/-- C16: the loop of lines 92-107 run on a permutation of the references has the
same outcome: it raises the same error, or it ends with the same
`sessionRequired` flag and, as sets, the same input names and the same output
names for every block. -/
theorem classification_order_independent (blocks : List Block) (ns : List NodeState)
    (refs1 refs2 : List Reference) (hperm : refs1.Perm refs2) :
    SameOutcome (classify blocks refs1 ns) (classify blocks refs2 ns) := by
  have h1 := classify_actions blocks refs1 ns
  have h2 := classify_actions blocks refs2 ns
  cases hc1 : classify blocks refs1 ns with
  | error e1 =>
    rw [hc1] at h1
    cases hc2 : classify blocks refs2 ns with
    | error e2 =>
      rw [hc2] at h2
      exact h1.1.trans h2.1.symm
    | ok b =>
      rw [hc2] at h2
      obtain ⟨-, ref, href, herr⟩ := h1
      obtain ⟨acts, hacts, -⟩ := h2
      obtain ⟨a, ha⟩ := forall₂_getElem?_left hacts (hperm.mem_iff.mp href)
      rw [herr] at ha
      cases ha
  | ok a =>
    rw [hc1] at h1
    cases hc2 : classify blocks refs2 ns with
    | error e2 =>
      rw [hc2] at h2
      obtain ⟨-, ref, href, herr⟩ := h2
      obtain ⟨acts, hacts, -⟩ := h1
      obtain ⟨a, ha⟩ := forall₂_getElem?_left hacts (hperm.mem_iff.mpr href)
      rw [herr] at ha
      cases ha
    | ok b =>
      rw [hc2] at h2
      obtain ⟨acts1, hacts1, hk1⟩ := h1
      obtain ⟨acts2, hacts2, hk2⟩ := h2
      have hmem : ∀ x, x ∈ acts1 ↔ x ∈ acts2 := by
        intro x
        rw [mem_actions_iff hacts1, mem_actions_iff hacts2]
        constructor
        · rintro ⟨r, hr, hx⟩; exact ⟨r, hperm.mem_iff.mp hr, hx⟩
        · rintro ⟨r, hr, hx⟩; exact ⟨r, hperm.mem_iff.mpr hr, hx⟩
      have hla := (classify_grows hc1).length_eq
      have hlb := (classify_grows hc2).length_eq
      show SameClassification a b
      unfold SameClassification
      rw [List.forall₂_iff_get]
      refine ⟨hla.symm.trans hlb, ?_⟩
      intro k hka hkb
      have hkn : k < ns.length := hla ▸ hka
      have ea := hk1 k
      have eb := hk2 k
      rw [List.getElem?_eq_getElem hka, List.getElem?_eq_getElem hkn, Option.map_some',
        Option.some.injEq] at ea
      rw [List.getElem?_eq_getElem hkb, List.getElem?_eq_getElem hkn, Option.map_some',
        Option.some.injEq] at eb
      simp only [List.get_eq_getElem, ea, eb]
      obtain ⟨s1, f1, i1, o1⟩ := finalState_spec acts1 k ns[k]
      obtain ⟨s2, f2, i2, o2⟩ := finalState_spec acts2 k ns[k]
      refine ⟨?_, s1.trans s2.symm, ?_, ?_⟩
      · have : (finalState acts1 k ns[k]).sessionRequired = true ↔
            (finalState acts2 k ns[k]).sessionRequired = true := by
          rw [f1, f2, hmem]
        cases h : (finalState acts1 k ns[k]).sessionRequired <;>
          cases h2 : (finalState acts2 k ns[k]).sessionRequired <;> simp_all
      · intro n
        rw [i1, i2]
        simp only [hmem]
      · intro n
        rw [o1, o2]
        simp only [hmem]


theorem classification_order_independent_witness :
    SameOutcome
      (classify example1Blocks [resolvedRef 44 "x" 15, resolvedRef 40 "y" 12] example1States)
      (classify example1Blocks [resolvedRef 40 "y" 12, resolvedRef 44 "x" 15] example1States) ∧
    (classify example1Blocks [resolvedRef 44 "x" 15, resolvedRef 40 "y" 12] example1States).map
        (fun r => r.map fun s => s.inNames) = .ok [[], ["x", "y"]] ∧
    (classify example1Blocks [resolvedRef 40 "y" 12, resolvedRef 44 "x" 15] example1States).map
        (fun r => r.map fun s => s.inNames) = .ok [[], ["y", "x"]] :=
  ⟨classification_order_independent example1Blocks example1States _ _ (List.Perm.swap _ _ _),
    rfl, rfl⟩

/-- C17: in a successful run every name in the output set of a block comes from
a resolved reference of that name whose declaration site is resolved to this
block and whose use site is resolved to another block. -/
theorem output_name_declared (source : JsString) (ast : Program) (scopes : List (List Reference))
    (blocks : List Block) (states : List NodeState)
    (h : parseBlocks uuid source ast scopes = .ok (blocks, states))
    (k : Nat) (s : NodeState) (n : String) (hs : states[k]? = some s) (hn : n ∈ s.outNames) :
    ∃ ref ∈ scopes.flatMap (fun scope => scope), ∃ v d i,
      ref.resolved = some v ∧ v.defs.head? = some d ∧ ref.identifier.name = n ∧
      blockFromNode blocks d.name = some k ∧ blockFromNode blocks ref.identifier = some i ∧
      i ≠ k := by
  obtain ⟨first, labels, -, -, hlabels, -, hclass, -⟩ := parseBlocks_ok uuid h
  have hspec := classify_actions blocks
    (references ((sortLabels labels).map Prod.fst) scopes) ((sortLabels labels).map Prod.snd)
  rw [hclass] at hspec
  obtain ⟨acts, hacts, hk⟩ := hspec
  have hk0 := hk k
  rw [hs] at hk0
  cases h0 : ((sortLabels labels).map Prod.snd)[k]? with
  | none => rw [h0] at hk0; cases hk0
  | some s0 =>
    rw [h0, Option.map_some', Option.some.injEq] at hk0
    have hempty : s0.outNames = [] := by
      obtain ⟨p, hp, rfl⟩ := List.mem_map.mp (List.getElem?_mem h0)
      obtain ⟨id, hid⟩ := labelStates_mem uuid hlabels ((sortLabels_perm labels).mem_iff.mp hp)
      obtain ⟨ids, -, hs0⟩ := NodeState.new_ok hid
      rw [hs0]
    rw [hk0, (finalState_spec acts k s0).2.2.2 n, hempty] at hn
    rcases hn with hn | ⟨i, hcross⟩
    · cases hn
    · obtain ⟨ref, href, hact⟩ := (mem_actions_iff hacts _).mp hcross
      obtain ⟨v, d, hv, hd, hname, hi, hj, hij⟩ := actionOf_cross hact
      rw [references_eq] at href
      exact ⟨ref, href, v, d, i, hv, hd, hname, hj, hi, hij⟩

theorem output_name_declared_witness :
    ∃ ref ∈ example1Scopes.flatMap (fun scope => scope), ∃ v d i,
      ref.resolved = some v ∧ v.defs.head? = some d ∧ ref.identifier.name = "x" ∧
      blockFromNode example1Blocks d.name = some 0 ∧
      blockFromNode example1Blocks ref.identifier = some i ∧ i ≠ 0 :=
  output_name_declared uuid0 example1Source example1Ast example1Scopes example1Blocks _ rfl
    0 _ "x" rfl (by decide)

/-! ## The identifier supply: claim C12 -/

theorem NodeState.new_eraseId (m : Node) (id1 id2 : String) :
    (NodeState.new m id1).map NodeState.eraseId = (NodeState.new m id2).map NodeState.eraseId := by
  unfold NodeState.new
  cases identifiersFromLabelNode m <;> rfl

theorem labelStates_eraseId (uuid1 uuid2 : Nat → String) (ms : List Node) :
    ∀ k1 k2, (labelStates uuid1 k1 ms).map (List.map eraseLabelId) =
      (labelStates uuid2 k2 ms).map (List.map eraseLabelId) := by
  induction ms with
  | nil => intro k1 k2; rfl
  | cons m ms ih =>
    intro k1 k2
    have hrest := ih (k1 + 1) (k2 + 1)
    have hnew := NodeState.new_eraseId m (uuid1 k1) (uuid2 k2)
    simp only [labelStates]
    cases h1 : NodeState.new m (uuid1 k1) with
    | error e =>
      cases h2 : NodeState.new m (uuid2 k2) with
      | error e2 =>
        rw [h1, h2] at hnew
        simp only [Except.map, Except.error.injEq] at hnew ⊢
        exact hnew
      | ok s2 => rw [h1, h2] at hnew; simp only [Except.map] at hnew; cases hnew
    | ok s1 =>
      cases h2 : NodeState.new m (uuid2 k2) with
      | error e2 => rw [h1, h2] at hnew; simp only [Except.map] at hnew; cases hnew
      | ok s2 =>
        rw [h1, h2] at hnew
        simp only [Except.map, Except.ok.injEq] at hnew
        cases h3 : labelStates uuid1 (k1 + 1) ms with
        | error e3 =>
          cases h4 : labelStates uuid2 (k2 + 1) ms with
          | error e4 =>
            rw [h3, h4] at hrest
            simp only [Except.map, Except.error.injEq] at hrest ⊢
            exact hrest
          | ok l4 => rw [h3, h4] at hrest; simp only [Except.map] at hrest; cases hrest
        | ok l3 =>
          cases h4 : labelStates uuid2 (k2 + 1) ms with
          | error e4 => rw [h3, h4] at hrest; simp only [Except.map] at hrest; cases hrest
          | ok l4 =>
            rw [h3, h4] at hrest
            simp only [Except.map, Except.ok.injEq] at hrest ⊢
            simp only [List.map_cons, hrest, eraseLabelId, hnew]


theorem traverseProgram_ok_of_ok (uuid1 uuid2 : Nat → String) {ast : Program}
    {st1 : TraverseState} (h : traverseProgram uuid1 ast = .ok st1) :
    ∃ st2, traverseProgram uuid2 ast = .ok st2 := by
  have hspec := traverse_spec uuid1 ast.toNode { functionStack := [], onLabels := [] } (by simp)
  simp only [traverseProgram] at h ⊢
  simp only [Program.toNode] at hspec
  rw [h] at hspec
  exact traverse_complete uuid2 _ { functionStack := [], onLabels := [] } (by simp) hspec.2.2

theorem traverseProgram_error {ast : Program} {e : JsError}
    (h : traverseProgram uuid ast = .error e) : e = .SyntaxError := by
  have hspec := traverse_spec uuid ast.toNode { functionStack := [], onLabels := [] } (by simp)
  simp only [traverseProgram] at h
  simp only [Program.toNode] at hspec
  rw [h] at hspec
  exact hspec

/-- The walk of a module with two identifier supplies: the same error, or the
same function stack and the same labels with states that differ in their
identifiers only. -/
theorem traverseProgram_eraseId (uuid1 uuid2 : Nat → String) (ast : Program) :
    (traverseProgram uuid1 ast).map
        (fun st => (st.functionStack, st.onLabels.map eraseLabelId)) =
      (traverseProgram uuid2 ast).map
        (fun st => (st.functionStack, st.onLabels.map eraseLabelId)) := by
  cases h1 : traverseProgram uuid1 ast with
  | error e1 =>
    cases h2 : traverseProgram uuid2 ast with
    | error e2 =>
      rw [traverseProgram_error uuid1 h1, traverseProgram_error uuid2 h2]
    | ok st2 =>
      obtain ⟨st1, h⟩ := traverseProgram_ok_of_ok uuid2 uuid1 h2
      rw [h1] at h
      cases h
  | ok st1 =>
    cases h2 : traverseProgram uuid2 ast with
    | error e2 =>
      obtain ⟨st2, h⟩ := traverseProgram_ok_of_ok uuid1 uuid2 h1
      rw [h2] at h
      cases h
    | ok st2 =>
      obtain ⟨hs1, hl1⟩ := traverseProgram_ok uuid1 h1
      obtain ⟨hs2, hl2⟩ := traverseProgram_ok uuid2 h2
      have := labelStates_eraseId uuid1 uuid2 (markersOf ast.toNode) 0 0
      rw [hl1, hl2] at this
      simp only [Except.map, Except.ok.injEq] at this ⊢
      rw [hs1, hs2, this]

theorem sortLabels_eraseId (labels : List (Node × NodeState)) :
    (sortLabels labels).map eraseLabelId = sortLabels (labels.map eraseLabelId) := by
  unfold sortLabels
  exact List.map_insertionSort labelLe labelLe eraseLabelId labels (fun a _ b _ => Iff.rfl)

theorem map_fst_eraseLabelId (labels : List (Node × NodeState)) :
    (labels.map eraseLabelId).map Prod.fst = labels.map Prod.fst := by
  simp [eraseLabelId]

theorem map_snd_eraseLabelId (labels : List (Node × NodeState)) :
    (labels.map eraseLabelId).map Prod.snd = (labels.map Prod.snd).map NodeState.eraseId := by
  simp [eraseLabelId]


theorem Action.stateAt_eraseId (a : Action) (k : Nat) (s : NodeState) :
    (a.stateAt k s).eraseId = a.stateAt k s.eraseId := by
  cases a with
  | skip => rfl
  | session i =>
    simp only [Action.stateAt]
    split <;> rfl
  | cross i j name =>
    simp only [Action.stateAt]
    split
    · rfl
    · split <;> rfl

theorem map_sides_eraseId (ns : List NodeState) :
    ((ns.map NodeState.eraseId).map fun s => s.sides) = ns.map fun s => s.sides := by
  simp [NodeState.eraseId]

/-- One turn of the loop does not read the identifiers of the states. -/
theorem classifyReference_eraseId (blocks : List Block) (ns : List NodeState) (ref : Reference) :
    (classifyReference blocks ns ref).map (List.map NodeState.eraseId) =
      classifyReference blocks (ns.map NodeState.eraseId) ref := by
  have h1 := classifyReference_action blocks ns ref
  have h2 := classifyReference_action blocks (ns.map NodeState.eraseId) ref
  cases hc1 : classifyReference blocks ns ref with
  | error e1 =>
    rw [hc1] at h1
    cases hc2 : classifyReference blocks (ns.map NodeState.eraseId) ref with
    | error e2 =>
      rw [hc2] at h2
      simp only [Except.map, h1.1, h2.1]
    | ok b =>
      rw [hc2] at h2
      obtain ⟨a, ha, -⟩ := h2
      rw [map_sides_eraseId, h1.2] at ha
      cases ha
  | ok ns1 =>
    rw [hc1] at h1
    obtain ⟨a, ha, hk⟩ := h1
    cases hc2 : classifyReference blocks (ns.map NodeState.eraseId) ref with
    | error e2 =>
      rw [hc2] at h2
      have herr := h2.2
      rw [map_sides_eraseId, ha] at herr
      cases herr
    | ok b =>
      rw [hc2] at h2
      obtain ⟨a2, ha2, hk2⟩ := h2
      rw [map_sides_eraseId, ha] at ha2
      cases ha2
      simp only [Except.map, Except.ok.injEq]
      apply List.ext_getElem?
      intro k
      rw [hk2 k, List.getElem?_map, List.getElem?_map, hk k]
      cases ns[k]? with
      | none => rfl
      | some s => simp [Action.stateAt_eraseId]

theorem classify_eraseId (blocks : List Block) (refs : List Reference) :
    ∀ ns : List NodeState, (classify blocks refs ns).map (List.map NodeState.eraseId) =
      classify blocks refs (ns.map NodeState.eraseId) := by
  induction refs with
  | nil => intro ns; rfl
  | cons ref rest ih =>
    intro ns
    have hstep := classifyReference_eraseId blocks ns ref
    simp only [classify]
    cases h1 : classifyReference blocks ns ref with
    | error e =>
      rw [h1] at hstep
      rw [← hstep]
      rfl
    | ok ns1 =>
      rw [h1] at hstep
      rw [← hstep]
      exact ih ns1


/-- The blocks and the states of two runs with two identifier supplies differ in
the identifiers of the states only. -/
theorem parseBlocks_eraseId (uuid1 uuid2 : Nat → String) (source : JsString) (ast : Program)
    (scopes : List (List Reference)) :
    (parseBlocks uuid1 source ast scopes).map (fun r => (r.1, r.2.map NodeState.eraseId)) =
      (parseBlocks uuid2 source ast scopes).map (fun r => (r.1, r.2.map NodeState.eraseId)) := by
  unfold parseBlocks
  cases ast.body.head? with
  | none => rfl
  | some first =>
    simp only
    split
    · rfl
    · have hrel := traverseProgram_eraseId uuid1 uuid2 ast
      cases h1 : traverseProgram uuid1 ast with
      | error e1 =>
        cases h2 : traverseProgram uuid2 ast with
        | error e2 =>
          rw [h1, h2] at hrel
          simp only [Except.map, Except.error.injEq] at hrel ⊢
          exact hrel
        | ok st2 => rw [h1, h2] at hrel; simp only [Except.map] at hrel; cases hrel
      | ok st1 =>
        cases h2 : traverseProgram uuid2 ast with
        | error e2 => rw [h1, h2] at hrel; simp only [Except.map] at hrel; cases hrel
        | ok st2 =>
          rw [h1, h2] at hrel
          simp only [Except.map, Except.ok.injEq, Prod.mk.injEq] at hrel
          obtain ⟨hstack, hlabels⟩ := hrel
          have hsorted : (sortLabels st1.onLabels).map eraseLabelId =
              (sortLabels st2.onLabels).map eraseLabelId := by
            rw [sortLabels_eraseId, sortLabels_eraseId, hlabels]
          have hfst : (sortLabels st1.onLabels).map Prod.fst =
              (sortLabels st2.onLabels).map Prod.fst := by
            rw [← map_fst_eraseLabelId, hsorted, map_fst_eraseLabelId]
          have hsnd : ((sortLabels st1.onLabels).map Prod.snd).map NodeState.eraseId =
              ((sortLabels st2.onLabels).map Prod.snd).map NodeState.eraseId := by
            rw [← map_snd_eraseLabelId, hsorted, map_snd_eraseLabelId]
          simp only [hstack, hfst]
          split
          · rfl
          · have hc1 := classify_eraseId
              (onBlocks source.length ((sortLabels st2.onLabels).map Prod.fst))
              (references ((sortLabels st2.onLabels).map Prod.fst) scopes)
              ((sortLabels st1.onLabels).map Prod.snd)
            have hc2 := classify_eraseId
              (onBlocks source.length ((sortLabels st2.onLabels).map Prod.fst))
              (references ((sortLabels st2.onLabels).map Prod.fst) scopes)
              ((sortLabels st2.onLabels).map Prod.snd)
            rw [hsnd, ← hc2] at hc1
            cases h3 : classify
                (onBlocks source.length ((sortLabels st2.onLabels).map Prod.fst))
                (references ((sortLabels st2.onLabels).map Prod.fst) scopes)
                ((sortLabels st1.onLabels).map Prod.snd) with
            | error e3 =>
              cases h4 : classify
                  (onBlocks source.length ((sortLabels st2.onLabels).map Prod.fst))
                  (references ((sortLabels st2.onLabels).map Prod.fst) scopes)
                  ((sortLabels st2.onLabels).map Prod.snd) with
              | error e4 =>
                rw [h3, h4] at hc1
                simp only [Except.map, Except.error.injEq] at hc1 ⊢
                exact hc1
              | ok n4 => rw [h3, h4] at hc1; simp only [Except.map] at hc1; cases hc1
            | ok n3 =>
              cases h4 : classify
                  (onBlocks source.length ((sortLabels st2.onLabels).map Prod.fst))
                  (references ((sortLabels st2.onLabels).map Prod.fst) scopes)
                  ((sortLabels st2.onLabels).map Prod.snd) with
              | error e4 => rw [h3, h4] at hc1; simp only [Except.map] at hc1; cases hc1
              | ok n4 =>
                rw [h3, h4] at hc1
                simp only [Except.map, Except.ok.injEq] at hc1 ⊢
                rw [hc1]


theorem NodeState.eraseId_eq {s t : NodeState} (h : s.eraseId = t.eraseId) :
    s.sides = t.sides ∧ s.sessionRequired = t.sessionRequired ∧ s.inNames = t.inNames ∧
      s.outNames = t.outNames := by
  cases s; cases t
  simp only [NodeState.eraseId, NodeState.mk.injEq] at h
  simp [h]

theorem server_view_congr (source : JsString) :
    ∀ (b : List Block) (n1 n2 : List NodeState),
      n1.map NodeState.eraseId = n2.map NodeState.eraseId →
      (((b.zip n1).filter fun p => p.2.sides.contains server).map
          fun p => fragment source p.1 p.2).map (fun f => (f.sessionRequired, f.code)) =
        (((b.zip n2).filter fun p => p.2.sides.contains server).map
          fun p => fragment source p.1 p.2).map (fun f => (f.sessionRequired, f.code)) := by
  intro b
  induction b with
  | nil => intro n1 n2 _; rfl
  | cons x b ih =>
    intro n1 n2 h
    cases n1 with
    | nil =>
      cases n2 with
      | nil => rfl
      | cons s2 n2 => simp at h
    | cons s1 n1 =>
      cases n2 with
      | nil => simp at h
      | cons s2 n2 =>
        simp only [List.map_cons, List.cons.injEq] at h
        obtain ⟨hs, hrest⟩ := h
        obtain ⟨e1, e2, e3, e4⟩ := NodeState.eraseId_eq hs
        have := ih n1 n2 hrest
        simp only [List.zip_cons_cons, List.filter_cons, e1]
        split
        · simp only [List.map_cons, this, List.cons.injEq, and_true]
          simp only [fragment, fragmentCode, e2, e3, e4]
        · exact this

/-- C12: two runs of `parse` on the same source, AST and scope graph, with any
two identifier supplies, raise the same error or answer the same blocks with
the same tier lists, flags and name sets, and fragment lists of the same length
whose entries have the same `sessionRequired` and the same `code`, in the same
order. -/
theorem parse_deterministic (uuid1 uuid2 : Nat → String) (source : JsString) (ast : Program)
    (scopes : List (List Reference)) :
    (parseBlocks uuid1 source ast scopes).map
        (fun r => (r.1, r.2.map fun s => (s.sides, s.sessionRequired, s.inNames, s.outNames))) =
      (parseBlocks uuid2 source ast scopes).map
        (fun r => (r.1, r.2.map fun s => (s.sides, s.sessionRequired, s.inNames, s.outNames))) ∧
    (parse uuid1 source ast scopes).map
        (fun out => out.server.map fun f => (f.sessionRequired, f.code)) =
      (parse uuid2 source ast scopes).map
        (fun out => out.server.map fun f => (f.sessionRequired, f.code)) := by
  have hrel := parseBlocks_eraseId uuid1 uuid2 source ast scopes
  unfold parse
  cases h1 : parseBlocks uuid1 source ast scopes with
  | error e1 =>
    cases h2 : parseBlocks uuid2 source ast scopes with
    | error e2 =>
      rw [h1, h2] at hrel
      simp only [Except.map, Except.error.injEq] at hrel ⊢
      exact ⟨hrel, hrel⟩
    | ok r2 => rw [h1, h2] at hrel; simp only [Except.map] at hrel; cases hrel
  | ok r1 =>
    cases h2 : parseBlocks uuid2 source ast scopes with
    | error e2 => rw [h1, h2] at hrel; simp only [Except.map] at hrel; cases hrel
    | ok r2 =>
      rw [h1, h2] at hrel
      obtain ⟨b1, n1⟩ := r1
      obtain ⟨b2, n2⟩ := r2
      simp only [Except.map, Except.ok.injEq, Prod.mk.injEq] at hrel ⊢
      obtain ⟨hb, hn⟩ := hrel
      subst hb
      refine ⟨⟨rfl, ?_⟩, server_view_congr source b1 n1 n2 hn⟩
      have hview : ∀ n : List NodeState,
          (n.map fun s => (s.sides, s.sessionRequired, s.inNames, s.outNames)) =
            (n.map NodeState.eraseId).map
              fun s => (s.sides, s.sessionRequired, s.inNames, s.outNames) := by
        intro n
        simp [NodeState.eraseId]
      rw [hview n1, hview n2, hn]

end Veq
